import Mathlib

/-!
Verification of the duplicate-video-finder core.

This file gives a shallow embedding, in Lean 4, of the algorithmic core of
the `duplicate-video-finder` repository and proves (or refutes) the frozen
claims about it.  The embedded pieces are:

* perceptual frame hashes and their Hamming distance
  (`imagehash.ImageHash`, where `h1 - h2` is the bit-difference count);
* `hashing.compare_hashes` — the exact similarity percentage;
* `cache_manager.load_or_check_cache` / `cache_manager.update_cache` — the
  staleness-aware signature cache;
* the per-result aggregation loop of
  `core.calculate_all_hashes.calculate_all_hashes`;
* `utils.bktree.BKTree` — insertion and bounded-radius query;
* `core.identify_watched_videos.identify_watched_videos` — the watched
  matcher, including its nearest-neighbour BK-tree search;
* `core.find_similar_groups.find_similar_groups` — candidate generation,
  exact verification and threshold filtering;
* `utils.group_similar_items.group_similar_items` — BFS connected-component
  grouping with per-group average similarity;
* `watched_db_manager.add_video_to_watched_db` — the watched database.

Python floats are modelled as rationals (`ℚ`), Python ints as `Nat`/`ℤ`
(with `ℤ` wherever a Python subtraction can go negative), Python dicts as
association lists with insert-or-replace update (keys are unique in any
dict, which the embedding carries as `Nodup` hypotheses where needed), and
a `None`-or-value result as `Option`.
-/

namespace VideoFinder

/-- A perceptual frame hash: a fixed-width bit vector.  `imagehash` stores a
numpy boolean array of `hash_size * hash_size` bits. -/
abbrev FrameHash := List Bool

/-- Hamming distance between two frame hashes: `h1 - h2` in `imagehash`
counts the positions where the aligned bit arrays differ. -/
def hamming : FrameHash → FrameHash → Nat
  | [], _ => 0
  | _, [] => 0
  | a :: as, b :: bs => (if a = b then 0 else 1) + hamming as bs

theorem hamming_comm (a b : FrameHash) : hamming a b = hamming b a := by
  induction a generalizing b with
  | nil => cases b <;> simp [hamming]
  | cons x xs ih =>
    cases b with
    | nil => simp [hamming]
    | cons y ys => simp [hamming, ih, eq_comm]

theorem hamming_self (a : FrameHash) : hamming a a = 0 := by
  induction a with
  | nil => simp [hamming]
  | cons x xs ih => simp [hamming, ih]

theorem hamming_le_length (a b : FrameHash) : hamming a b ≤ a.length := by
  induction a generalizing b with
  | nil => simp [hamming]
  | cons x xs ih =>
    cases b with
    | nil => simp [hamming]
    | cons y ys =>
      simp only [hamming, List.length_cons]
      have := ih ys
      split <;> omega

theorem eq_of_hamming_eq_zero {a b : FrameHash} (hlen : a.length = b.length)
    (h : hamming a b = 0) : a = b := by
  induction a generalizing b with
  | nil => cases b with
    | nil => rfl
    | cons y ys => simp at hlen
  | cons x xs ih =>
    cases b with
    | nil => simp at hlen
    | cons y ys =>
      simp only [hamming] at h
      simp only [List.length_cons, Nat.succ_inj] at hlen
      by_cases hxy : x = y
      · simp [hxy] at h ⊢
        exact ih hlen h
      · simp [hxy] at h

theorem hamming_triangle {a b c : FrameHash} (hab : a.length = b.length)
    (hbc : b.length = c.length) : hamming a c ≤ hamming a b + hamming b c := by
  induction a generalizing b c with
  | nil =>
    cases b <;> cases c <;> simp [hamming]
  | cons x xs ih =>
    cases b with
    | nil => simp at hab
    | cons y ys =>
      cases c with
      | nil => simp at hbc
      | cons z zs =>
        simp only [List.length_cons, Nat.succ_inj] at hab hbc
        simp only [hamming]
        have hpt : (if x = z then (0:Nat) else 1) ≤
            (if x = y then 0 else 1) + (if y = z then 0 else 1) := by
          split_ifs <;> simp_all
        have := ih hab hbc
        omega

/-- Reverse triangle inequality, in `ℤ`, for equal-length hashes. -/
theorem hamming_reverse_triangle {q v h : FrameHash} (hq : q.length = v.length)
    (hh : h.length = v.length) :
    |(hamming q v : ℤ) - (hamming h v : ℤ)| ≤ (hamming q h : ℤ) := by
  have h1 : hamming q v ≤ hamming q h + hamming h v :=
    hamming_triangle (by omega : q.length = h.length) hh
  have h2 : hamming h v ≤ hamming h q + hamming q v :=
    hamming_triangle (by omega : h.length = q.length) hq
  rw [hamming_comm h q] at h2
  rw [abs_le]
  constructor <;> omega

/-!
### `hashing.compare_hashes`

Exact similarity percentage between two hash lists.  The Python code also
guards against `None` entries and `TypeError`s inside the loop; those
branches are unreachable for genuine lists of `ImageHash` objects, which is
what the typed embedding carries, so the embedded loop is the plain
accumulation of pairwise Hamming distances over `zip(hashes1, hashes2)`.
-/

/-- `hashing.compare_hashes(hashes1, hashes2, hash_size)`. -/
def compare_hashes (hashes1 hashes2 : List FrameHash) (hash_size : Nat) : ℚ :=
  if hashes1 = [] ∨ hashes2 = [] ∨ hashes1.length ≠ hashes2.length then 0
  else
    let hash_len_bits : ℚ := ((hash_size * hash_size : Nat) : ℚ)
    let total_distance : ℚ :=
      ((List.zip hashes1 hashes2).map (fun p => (hamming p.1 p.2 : ℚ))).sum
    let num_hashes := hashes1.length
    if num_hashes = 0 then 0
    else
      let average_distance := total_distance / (num_hashes : ℚ)
      if hash_len_bits = 0 then 0
      else max 0 ((hash_len_bits - average_distance) / hash_len_bits) * 100

theorem zip_self_hamming_sum (A : List FrameHash) :
    ((List.zip A A).map (fun p => (hamming p.1 p.2 : ℚ))).sum = 0 := by
  induction A with
  | nil => simp
  | cons x xs ih => simp [ih, hamming_self]

theorem zip_hamming_sum_comm (A B : List FrameHash) :
    ((List.zip A B).map (fun p => (hamming p.1 p.2 : ℚ))).sum =
      ((List.zip B A).map (fun p => (hamming p.1 p.2 : ℚ))).sum := by
  induction A generalizing B with
  | nil => cases B <;> simp
  | cons x xs ih =>
    cases B with
    | nil => simp
    | cons y ys => simp [ih ys, hamming_comm]

theorem zip_hamming_sum_nonneg (A B : List FrameHash) :
    0 ≤ ((List.zip A B).map (fun p => (hamming p.1 p.2 : ℚ))).sum := by
  apply List.sum_nonneg
  intro x hx
  simp only [List.mem_map] at hx
  obtain ⟨p, _, rfl⟩ := hx
  positivity

/-- C6: for every pair of equal-length (nonempty, as every `Valid` signature
has `num_frames ≥ 1` frames) lists of valid frame hashes `A` and `B`, and
positive `hash_size`, the exact similarity satisfies
`similarity(A,B) ∈ [0,100]`, `similarity(A,A) = 100`, and
`similarity(A,B) = similarity(B,A)`. -/
theorem compare_hashes_props (A B : List FrameHash) (hash_size : Nat)
    (hlen : A.length = B.length) (hne : A ≠ []) (hhs : 0 < hash_size) :
    (0 ≤ compare_hashes A B hash_size ∧ compare_hashes A B hash_size ≤ 100) ∧
    compare_hashes A A hash_size = 100 ∧
    compare_hashes A B hash_size = compare_hashes B A hash_size := by
  have hBne : B ≠ [] := by
    intro hB; apply hne; rw [hB] at hlen; exact List.length_eq_zero.mp hlen
  have hbits : (0 : ℚ) < ((hash_size * hash_size : Nat) : ℚ) := by
    have : 0 < hash_size * hash_size := Nat.mul_pos hhs hhs
    exact_mod_cast this
  have hAlen : (0 : ℚ) < (A.length : ℚ) := by
    have : 0 < A.length := List.length_pos.mpr hne
    exact_mod_cast this
  refine ⟨?_, ?_, ?_⟩
  · -- range
    rw [compare_hashes]
    split
    · exact ⟨le_refl 0, by norm_num⟩
    · simp only
      rw [if_neg (by simpa using List.length_pos.mpr hne |>.ne'),
        if_neg hbits.ne']
      constructor
      · have : (0:ℚ) ≤ max 0 ((((hash_size * hash_size : Nat) : ℚ) -
            ((List.zip A B).map (fun p => (hamming p.1 p.2 : ℚ))).sum / (A.length : ℚ)) /
            ((hash_size * hash_size : Nat) : ℚ)) := le_max_left 0 _
        nlinarith
      · have havg : (0:ℚ) ≤
            ((List.zip A B).map (fun p => (hamming p.1 p.2 : ℚ))).sum / (A.length : ℚ) :=
          div_nonneg (zip_hamming_sum_nonneg A B) hAlen.le
        have hfrac : (((hash_size * hash_size : Nat) : ℚ) -
            ((List.zip A B).map (fun p => (hamming p.1 p.2 : ℚ))).sum / (A.length : ℚ)) /
            ((hash_size * hash_size : Nat) : ℚ) ≤ 1 := by
          rw [div_le_one hbits]
          linarith
        have hmax : max 0 ((((hash_size * hash_size : Nat) : ℚ) -
            ((List.zip A B).map (fun p => (hamming p.1 p.2 : ℚ))).sum / (A.length : ℚ)) /
            ((hash_size * hash_size : Nat) : ℚ)) ≤ 1 := by
          apply max_le (by norm_num) hfrac
        nlinarith
  · -- self-similarity is 100
    rw [compare_hashes]
    rw [if_neg (by simp [hne])]
    simp only
    rw [if_neg (by simpa using List.length_pos.mpr hne |>.ne'),
      if_neg hbits.ne']
    rw [zip_self_hamming_sum]
    rw [zero_div, sub_zero, div_self hbits.ne']
    norm_num
  · -- symmetry
    have key : ∀ (X Y : List FrameHash), X ≠ [] → Y.length = X.length →
        compare_hashes X Y hash_size =
          max 0 ((((hash_size * hash_size : Nat) : ℚ) -
            ((List.zip X Y).map (fun p => (hamming p.1 p.2 : ℚ))).sum / (X.length : ℚ)) /
            ((hash_size * hash_size : Nat) : ℚ)) * 100 := by
      intro X Y hX hXY
      have hY : Y ≠ [] := by
        intro h
        rw [h] at hXY
        exact hX (List.length_eq_zero.mp (by simpa using hXY.symm))
      rw [compare_hashes]
      rw [if_neg (by push_neg; exact ⟨hX, hY, hXY.symm⟩)]
      simp only
      rw [if_neg (by simpa using List.length_pos.mpr hX |>.ne'), if_neg hbits.ne']
    rw [key A B hne hlen.symm, key B A hBne hlen, zip_hamming_sum_comm A B, hlen]

/-- Witness for C6 at concrete hashes. -/
theorem compare_hashes_props_witness :
    (0 ≤ compare_hashes [[true]] [[false]] 1 ∧
      compare_hashes [[true]] [[false]] 1 ≤ 100) ∧
    compare_hashes [[true]] [[true]] 1 = 100 ∧
    compare_hashes [[true]] [[false]] 1 = compare_hashes [[false]] [[true]] 1 :=
  compare_hashes_props [[true]] [[false]] 1 rfl (by decide) (by decide)

/-!
### Association lists as Python dicts

`shelve` stores and Python dicts are string-keyed maps with unique keys;
the embedding uses association lists where `d[k] = v` is insert-or-replace
(keeping the original position of an existing key, as a dict does).
-/

/-- `d[k] = v` on a Python dict. -/
def upsert {α β : Type} [DecidableEq α] : List (α × β) → α → β → List (α × β)
  | [], k, v => [(k, v)]
  | (k', v') :: rest, k, v =>
    if k' = k then (k', v) :: rest else (k', v') :: upsert rest k v

/-- `d.get(k)` / `d[k]` on a Python dict. -/
def alookup {α β : Type} [DecidableEq α] : List (α × β) → α → Option β
  | [], _ => none
  | (k', v) :: rest, k => if k' = k then some v else alookup rest k

theorem alookup_upsert_self {α β : Type} [DecidableEq α]
    (c : List (α × β)) (k : α) (v : β) : alookup (upsert c k v) k = some v := by
  induction c with
  | nil => simp [upsert, alookup]
  | cons e rest ih =>
    obtain ⟨k', v'⟩ := e
    by_cases h : k' = k
    · simp [upsert, alookup, h]
    · simp [upsert, alookup, h, ih]

theorem alookup_upsert_ne {α β : Type} [DecidableEq α]
    (c : List (α × β)) (k k' : α) (v : β) (h : k ≠ k') :
    alookup (upsert c k v) k' = alookup c k' := by
  induction c with
  | nil => simp [upsert, alookup, h]
  | cons e rest ih =>
    obtain ⟨k0, v0⟩ := e
    by_cases h0 : k0 = k
    · subst h0
      simp [upsert, alookup, h]
    · simp [upsert, alookup, h0, ih]

theorem alookup_eq_none_iff {α β : Type} [DecidableEq α]
    (c : List (α × β)) (k : α) :
    alookup c k = none ↔ ∀ e ∈ c, e.1 ≠ k := by
  induction c with
  | nil => simp [alookup]
  | cons e rest ih =>
    obtain ⟨k0, v0⟩ := e
    by_cases h0 : k0 = k <;> simp [alookup, h0, ih]

theorem mem_keys_upsert {α β : Type} [DecidableEq α]
    (c : List (α × β)) (k : α) (v : β) (x : α)
    (hx : x ∈ (upsert c k v).map Prod.fst) : x = k ∨ x ∈ c.map Prod.fst := by
  induction c with
  | nil => simpa [upsert] using hx
  | cons e rest ih =>
    obtain ⟨k0, v0⟩ := e
    by_cases h0 : k0 = k
    · simp only [upsert, if_pos h0, List.map_cons, List.mem_cons] at hx ⊢
      tauto
    · simp only [upsert, if_neg h0, List.map_cons, List.mem_cons] at hx ⊢
      tauto

theorem nodup_keys_upsert {α β : Type} [DecidableEq α]
    (c : List (α × β)) (k : α) (v : β) (h : (c.map Prod.fst).Nodup) :
    ((upsert c k v).map Prod.fst).Nodup := by
  induction c with
  | nil => simp [upsert]
  | cons e rest ih =>
    obtain ⟨k0, v0⟩ := e
    simp only [List.map_cons, List.nodup_cons] at h
    by_cases h0 : k0 = k
    · simp only [upsert, if_pos h0, List.map_cons, List.nodup_cons]
      exact ⟨h.1, h.2⟩
    · simp only [upsert, if_neg h0, List.map_cons, List.nodup_cons]
      refine ⟨fun hc => ?_, ih h.2⟩
      rcases mem_keys_upsert rest k v k0 hc with h1 | h1
      · exact h0 h1
      · exact h.1 h1

theorem alookup_foldl_upsert_of_none {α β γ : Type} [DecidableEq α]
    (f : α × β → γ) (l : List (α × β)) (c : List (α × γ)) (k : α)
    (h : ∀ e ∈ l, e.1 ≠ k) :
    alookup (l.foldl (fun acc e => upsert acc e.1 (f e)) c) k = alookup c k := by
  induction l generalizing c with
  | nil => simp
  | cons e rest ih =>
    simp only [List.foldl_cons]
    rw [ih _ (fun e' he' => h e' (List.mem_cons_of_mem _ he'))]
    exact alookup_upsert_ne _ _ _ _ (h e (List.mem_cons_self _ _))

theorem alookup_foldl_upsert_of_some {α β γ : Type} [DecidableEq α]
    (f : α × β → γ) (l : List (α × β)) (c : List (α × γ)) (k : α) (v : β)
    (hnd : (l.map Prod.fst).Nodup) (hv : alookup l k = some v) :
    alookup (l.foldl (fun acc e => upsert acc e.1 (f e)) c) k = some (f (k, v)) := by
  induction l generalizing c with
  | nil => simp [alookup] at hv
  | cons e rest ih =>
    obtain ⟨k0, v0⟩ := e
    simp only [List.map_cons, List.nodup_cons] at hnd
    simp only [List.foldl_cons]
    by_cases h0 : k0 = k
    · subst h0
      have hvv : v0 = v := by simpa [alookup] using hv
      subst hvv
      have hne : ∀ e' ∈ rest, e'.1 ≠ k0 := fun e' he' hk =>
        hnd.1 (hk ▸ List.mem_map_of_mem Prod.fst he')
      rw [alookup_foldl_upsert_of_none f rest _ k0 hne]
      exact alookup_upsert_self _ _ _
    · simp only [alookup, if_neg h0] at hv
      exact ih _ hnd.2 hv

/-!
### `cache_manager`: the persistent signature cache

A cache record is `{mtime, num_frames, hash_size, hashes}` where `hashes`
is either a hash list or the string marker `"SKIPPED"`.  File-system
modification times are modelled by a total map `mtimeOf` (every scanned
path exists for the duration of the run, so the `FileNotFoundError`
branches are not taken).
-/

/-- The `"hashes"` field of a cache record: a hash list or `"SKIPPED"`. -/
inductive CachePayload where
  | hashes (hs : List FrameHash)
  | skipped
deriving DecidableEq

/-- One record of the `shelve` signature cache. -/
structure CacheEntry where
  mtime : ℚ
  num_frames : Nat
  hash_size : Nat
  payload : CachePayload
deriving DecidableEq

/-- `cache_manager.load_or_check_cache(video_files, cache_path, num_frames,
hash_size)`.  First prunes records whose path is not among the scanned
files, then classifies each scanned path: absent → miss (process), present
but with any of `mtime` / `num_frames` / `hash_size` differing → stale
(process), valid with `"SKIPPED"` payload → cached-skipped, valid with a
hash-list payload → hit.  Returns
`(video_hashes, videos_to_process, cached_skipped_files, pruned_cache)`. -/
def load_or_check_cache (video_files : List String) (mtimeOf : String → ℚ)
    (cache : List (String × CacheEntry)) (num_frames hash_size : Nat) :
    List (String × List FrameHash) × List String × List String ×
      List (String × CacheEntry) :=
  let pruned := cache.filter (fun e => video_files.contains e.1)
  let r := video_files.foldl (fun acc video_path =>
    let (video_hashes, videos_to_process, cached_skipped_files) := acc
    match alookup pruned video_path with
    | none => (video_hashes, videos_to_process ++ [video_path], cached_skipped_files)
    | some cached_data =>
      if cached_data.mtime = mtimeOf video_path ∧
          cached_data.num_frames = num_frames ∧
          cached_data.hash_size = hash_size then
        match cached_data.payload with
        | .skipped =>
          (video_hashes, videos_to_process, cached_skipped_files ++ [video_path])
        | .hashes hs =>
          (video_hashes ++ [(video_path, hs)], videos_to_process, cached_skipped_files)
      else
        (video_hashes, videos_to_process ++ [video_path], cached_skipped_files))
    ([], [], [])
  (r.1, r.2.1, r.2.2, pruned)

/-- `cache_manager.update_cache(cache_path, newly_cached_hashes,
newly_skipped_info, num_frames, hash_size)`: writes the newly hashed
records, then the newly skipped records, each fingerprinted with the
current run's `num_frames`/`hash_size`.  (The early return on two empty
inputs writes nothing, which coincides with folding over two empty
lists.) -/
def update_cache (cache : List (String × CacheEntry))
    (newly_cached_hashes : List (String × (List FrameHash × ℚ)))
    (newly_skipped_info : List (String × ℚ)) (num_frames hash_size : Nat) :
    List (String × CacheEntry) :=
  let c1 := newly_cached_hashes.foldl
    (fun c e => upsert c e.1 ⟨e.2.2, num_frames, hash_size, .hashes e.2.1⟩) cache
  newly_skipped_info.foldl
    (fun c e => upsert c e.1 ⟨e.2, num_frames, hash_size, .skipped⟩) c1

theorem alookup_filter_contains {β : Type} (c : List (String × β))
    (files : List String) (p : String) (hp : files.contains p = true) :
    alookup (c.filter (fun e => files.contains e.1)) p = alookup c p := by
  induction c with
  | nil => simp
  | cons e rest ih =>
    obtain ⟨k0, v0⟩ := e
    simp only [List.filter_cons]
    by_cases hf : files.contains k0 = true
    · rw [if_pos hf]
      simp only [alookup, ih]
    · rw [if_neg hf]
      have hk0 : k0 ≠ p := fun h => hf (h ▸ hp)
      simp only [alookup]
      rw [ih, if_neg hk0]

/-- C5: storing a computed signature for a path and re-loading with the
identical `(mtime, num_frames, hash_size)` yields a hit returning the
identical signature; a load in which at least one of the three fields
differs classifies the entry as stale and puts the path into
`videos_to_process`. -/
theorem cache_round_trip (cache : List (String × CacheEntry)) (p : String)
    (sig : List FrameHash) (m m' : ℚ) (nf hs nf' hs' : Nat) :
    ((m' = m ∧ nf' = nf ∧ hs' = hs) →
      (load_or_check_cache [p] (fun _ => m')
        (update_cache cache [(p, (sig, m))] [] nf hs) nf' hs').1 = [(p, sig)]) ∧
    ((m' ≠ m ∨ nf' ≠ nf ∨ hs' ≠ hs) →
      (load_or_check_cache [p] (fun _ => m')
        (update_cache cache [(p, (sig, m))] [] nf hs) nf' hs').2.1 = [p]) := by
  have hstore : alookup (update_cache cache [(p, (sig, m))] [] nf hs) p =
      some ⟨m, nf, hs, .hashes sig⟩ := by
    simp only [update_cache, List.foldl_cons, List.foldl_nil]
    exact alookup_upsert_self _ _ _
  have hpruned : alookup ((update_cache cache [(p, (sig, m))] [] nf hs).filter
      (fun e => [p].contains e.1)) p = some ⟨m, nf, hs, .hashes sig⟩ := by
    rw [alookup_filter_contains _ _ _ (by simp), hstore]
  constructor
  · rintro ⟨rfl, rfl, rfl⟩
    simp only [load_or_check_cache, List.foldl_cons, List.foldl_nil, hpruned]
    simp
  · intro hdiff
    simp only [load_or_check_cache, List.foldl_cons, List.foldl_nil, hpruned]
    have : ¬((⟨m, nf, hs, .hashes sig⟩ : CacheEntry).mtime = m' ∧
        (⟨m, nf, hs, .hashes sig⟩ : CacheEntry).num_frames = nf' ∧
        (⟨m, nf, hs, .hashes sig⟩ : CacheEntry).hash_size = hs') := by
      simp only
      rintro ⟨rfl, rfl, rfl⟩
      rcases hdiff with h | h | h <;> exact h rfl
    simp [this]

/-- Witness for C5: a concrete hit after an identical reload and a concrete
stale classification after an mtime change. -/
theorem cache_round_trip_witness :
    (load_or_check_cache ["v"] (fun _ => (5:ℚ))
      (update_cache [] [("v", ([[true]], 5))] [] 2 8) 2 8).1 = [("v", [[true]])] ∧
    (load_or_check_cache ["v"] (fun _ => (6:ℚ))
      (update_cache [] [("v", ([[true]], 5))] [] 2 8) 2 8).2.1 = ["v"] :=
  ⟨(cache_round_trip [] "v" [[true]] 5 5 2 8 2 8).1 ⟨rfl, rfl, rfl⟩,
   (cache_round_trip [] "v" [[true]] 5 6 2 8 2 8).2 (Or.inl (by norm_num))⟩

/-!
### `core.calculate_all_hashes`: the result-aggregation loop

`calculate_video_hashes` returns `None` on a decode error (`Failed`), `[]`
for an intentionally skipped or under-delivering video, and otherwise a
list of hashes.  The aggregation loop of `calculate_all_hashes` runs on the
controlling thread, one completed worker at a time, in arbitrary completion
order — modelled as a fold over a list of `(path, result)` pairs.  Paths
are distinct (one future per path).  `os.path.getmtime` is modelled by a
total map (no file disappears during the run, so the `FileNotFoundError`
branches are not taken).
-/

/-- One `FrameSampler`/`calculate_video_hashes` outcome: `none` is a decode
error (`Failed`), `some []` a skip, `some hs` a hash list. -/
abbrev SampleResult := Option (List FrameHash)

/-- The mutable state of the aggregation loop in `calculate_all_hashes`. -/
structure AggState where
  video_hashes : List (String × List FrameHash)
  newly_cached_hashes : List (String × (List FrameHash × ℚ))
  newly_skipped_info : List (String × ℚ)
  skipped_during_hashing : List String
deriving DecidableEq

/-- Python `set.add` on a set modelled as a duplicate-free list. -/
def setAdd {α : Type} [DecidableEq α] (l : List α) (x : α) : List α :=
  if l.contains x then l else l ++ [x]

theorem mem_setAdd {α : Type} [DecidableEq α] (l : List α) (x y : α) :
    y ∈ setAdd l x ↔ y ∈ l ∨ y = x := by
  rw [setAdd]
  by_cases h : l.contains x = true
  · rw [if_pos h]
    have hx : x ∈ l := by simpa using h
    constructor
    · exact Or.inl
    · rintro (hy | rfl)
      · exact hy
      · exact hx
  · rw [if_neg h]
    simp

theorem nodup_setAdd {α : Type} [DecidableEq α] (l : List α) (x : α)
    (h : l.Nodup) : (setAdd l x).Nodup := by
  rw [setAdd]
  by_cases hc : l.contains x = true
  · rwa [if_pos hc]
  · rw [if_neg hc]
    have hx : x ∉ l := by simpa using hc
    simp [List.nodup_append, h, hx]

/-- The body of the `as_completed` loop of `calculate_all_hashes`
(`core/calculate_all_hashes.py`, lines 75–124), folded over the worker
results: a result with exactly `num_frames` hashes is recorded in
`video_hashes` and queued in `newly_cached_hashes`; anything else —
`None` (`Failed`) included — is added to `skipped_during_hashing` and
queued in `newly_skipped_info` with the file's current mtime. -/
def aggStep (mtimeOf : String → ℚ) (num_frames : Nat) (st : AggState)
    (r : String × SampleResult) : AggState :=
  let video_path := r.1
  let current_mtime := mtimeOf video_path
  match r.2 with
  | some hs =>
    if hs.length = num_frames then
      { st with
        video_hashes := upsert st.video_hashes video_path hs,
        newly_cached_hashes :=
          upsert st.newly_cached_hashes video_path (hs, current_mtime) }
    else
      { st with
        skipped_during_hashing := setAdd st.skipped_during_hashing video_path,
        newly_skipped_info :=
          upsert st.newly_skipped_info video_path current_mtime }
  | none =>
    { st with
      skipped_during_hashing := setAdd st.skipped_during_hashing video_path,
      newly_skipped_info :=
        upsert st.newly_skipped_info video_path current_mtime }

def aggregate_results (results : List (String × SampleResult))
    (mtimeOf : String → ℚ) (num_frames : Nat) (st0 : AggState) : AggState :=
  results.foldl (aggStep mtimeOf num_frames) st0

/-- C1 counterexample: one video, whose sampler invocation fails (`None`).
It is excluded from the result signature map, but — contrary to the claim —
a `SKIPPED` cache entry IS written for it, and a subsequent run with the
same mtime and parameters classifies it as cached-skipped rather than
retrying it (`videos_to_process` is empty). -/
theorem failed_not_cached_counterexample :
    (aggregate_results [("v", none)] (fun _ => 5) 1 ⟨[], [], [], []⟩).video_hashes
        = [] ∧
    update_cache []
        (aggregate_results [("v", none)] (fun _ => 5) 1 ⟨[], [], [], []⟩).newly_cached_hashes
        (aggregate_results [("v", none)] (fun _ => 5) 1 ⟨[], [], [], []⟩).newly_skipped_info
        1 8 = [("v", ⟨5, 1, 8, CachePayload.skipped⟩)] ∧
    (load_or_check_cache ["v"] (fun _ => 5)
        [("v", ⟨5, 1, 8, CachePayload.skipped⟩)] 1 8).2.1 = [] ∧
    (load_or_check_cache ["v"] (fun _ => 5)
        [("v", ⟨5, 1, 8, CachePayload.skipped⟩)] 1 8).2.2.1 = ["v"] := by
  exact ⟨rfl, rfl, rfl, rfl⟩

theorem aggregate_results_preserves (l : List (String × SampleResult))
    (mtimeOf : String → ℚ) (nf : Nat) (st : AggState) (p : String)
    (h : ∀ e ∈ l, e.1 ≠ p) :
    alookup (aggregate_results l mtimeOf nf st).video_hashes p =
      alookup st.video_hashes p ∧
    alookup (aggregate_results l mtimeOf nf st).newly_cached_hashes p =
      alookup st.newly_cached_hashes p ∧
    alookup (aggregate_results l mtimeOf nf st).newly_skipped_info p =
      alookup st.newly_skipped_info p := by
  induction l generalizing st with
  | nil => exact ⟨rfl, rfl, rfl⟩
  | cons e rest ih =>
    have hne : e.1 ≠ p := h e (List.mem_cons_self _ _)
    have hrest : ∀ e' ∈ rest, e'.1 ≠ p :=
      fun e' he' => h e' (List.mem_cons_of_mem _ he')
    have step : aggregate_results (e :: rest) mtimeOf nf st =
        aggregate_results rest mtimeOf nf (aggStep mtimeOf nf st e) := rfl
    rw [step]
    obtain ⟨vh, nc, ns⟩ := ih _ hrest
    rw [vh, nc, ns]
    obtain ⟨q, res⟩ := e
    replace hne : q ≠ p := hne
    have hvne : ∀ (β : Type) (c : List (String × β)) (v : β),
        alookup (upsert c q v) p = alookup c p :=
      fun β c v => alookup_upsert_ne c q p v hne
    cases res with
    | some hs =>
      by_cases hlen : hs.length = nf
      · simp [aggStep, hlen, hvne]
      · simp [aggStep, hlen, hvne]
    | none => simp [aggStep, hvne]

theorem aggregate_results_nodup_ns (l : List (String × SampleResult))
    (mtimeOf : String → ℚ) (nf : Nat) (st : AggState)
    (h : (st.newly_skipped_info.map Prod.fst).Nodup) :
    ((aggregate_results l mtimeOf nf st).newly_skipped_info.map Prod.fst).Nodup := by
  induction l generalizing st with
  | nil => exact h
  | cons e rest ih =>
    have step : aggregate_results (e :: rest) mtimeOf nf st =
        aggregate_results rest mtimeOf nf (aggStep mtimeOf nf st e) := rfl
    rw [step]
    apply ih
    obtain ⟨q, res⟩ := e
    cases res with
    | some hs =>
      by_cases hlen : hs.length = nf
      · simp only [aggStep]
        rw [if_pos hlen]
        exact h
      · simp only [aggStep]
        rw [if_neg hlen]
        exact nodup_keys_upsert _ _ _ h
    | none =>
      exact nodup_keys_upsert _ _ _ h

theorem load_single_skipped (cache : List (String × CacheEntry)) (p : String)
    (mtimeOf : String → ℚ) (nf hsz : Nat)
    (h : alookup cache p = some ⟨mtimeOf p, nf, hsz, CachePayload.skipped⟩) :
    (load_or_check_cache [p] mtimeOf cache nf hsz).2.1 = [] ∧
    (load_or_check_cache [p] mtimeOf cache nf hsz).2.2.1 = [p] := by
  have hpr : alookup (cache.filter (fun e => [p].contains e.1)) p =
      some ⟨mtimeOf p, nf, hsz, CachePayload.skipped⟩ := by
    rw [alookup_filter_contains _ _ _ (by simp), h]
  simp only [load_or_check_cache, List.foldl_cons, List.foldl_nil, hpr]
  simp

/-- C1 (amended): a video whose sampler invocation returns `Failed`
(`None`) is excluded from the result signature map, but — unlike the
original claim — it is recorded in `newly_skipped_info` and a `SKIPPED`
cache entry with the current run's mtime and parameters IS written for it,
so a subsequent run with the same mtime and parameters classifies it as
cached-skipped and does not retry it. -/
theorem failed_result_is_cached (results : List (String × SampleResult))
    (mtimeOf : String → ℚ) (nf hsz : Nat) (p : String)
    (cache : List (String × CacheEntry)) (st0 : AggState)
    (hmem : (p, (none : SampleResult)) ∈ results)
    (hkeys : (results.map Prod.fst).Nodup)
    (hvh : alookup st0.video_hashes p = none)
    (hnc : alookup st0.newly_cached_hashes p = none)
    (hnsnd : (st0.newly_skipped_info.map Prod.fst).Nodup) :
    alookup (aggregate_results results mtimeOf nf st0).video_hashes p = none ∧
    alookup (aggregate_results results mtimeOf nf st0).newly_skipped_info p =
      some (mtimeOf p) ∧
    alookup (update_cache cache
        (aggregate_results results mtimeOf nf st0).newly_cached_hashes
        (aggregate_results results mtimeOf nf st0).newly_skipped_info nf hsz) p =
      some ⟨mtimeOf p, nf, hsz, CachePayload.skipped⟩ ∧
    (load_or_check_cache [p] mtimeOf
        (update_cache cache
          (aggregate_results results mtimeOf nf st0).newly_cached_hashes
          (aggregate_results results mtimeOf nf st0).newly_skipped_info nf hsz)
        nf hsz).2.1 = [] ∧
    (load_or_check_cache [p] mtimeOf
        (update_cache cache
          (aggregate_results results mtimeOf nf st0).newly_cached_hashes
          (aggregate_results results mtimeOf nf st0).newly_skipped_info nf hsz)
        nf hsz).2.2.1 = [p] := by
  obtain ⟨s, t, rfl⟩ := List.append_of_mem hmem
  have hmap : ((s ++ (p, (none : SampleResult)) :: t).map Prod.fst) =
      s.map Prod.fst ++ p :: t.map Prod.fst := by simp
  rw [hmap] at hkeys
  rw [List.nodup_append] at hkeys
  have hps : ∀ e ∈ s, e.1 ≠ p := by
    intro e he hep
    exact hkeys.2.2 (hep ▸ List.mem_map_of_mem Prod.fst he) (List.mem_cons_self _ _)
  have hpt : ∀ e ∈ t, e.1 ≠ p := by
    intro e he hep
    have hnd := hkeys.2.1
    rw [List.nodup_cons] at hnd
    exact hnd.1 (hep ▸ List.mem_map_of_mem Prod.fst he)
  have hsplit : aggregate_results (s ++ (p, (none : SampleResult)) :: t) mtimeOf nf st0 =
      aggregate_results t mtimeOf nf
        (aggStep mtimeOf nf (aggregate_results s mtimeOf nf st0) (p, none)) := by
    simp [aggregate_results, List.foldl_append]
  obtain ⟨vh1, nc1, ns1⟩ := aggregate_results_preserves s mtimeOf nf st0 p hps
  have hvh2 : alookup (aggStep mtimeOf nf (aggregate_results s mtimeOf nf st0)
      (p, none)).video_hashes p = none := by
    simpa [aggStep] using vh1.trans hvh
  have hnc2 : alookup (aggStep mtimeOf nf (aggregate_results s mtimeOf nf st0)
      (p, none)).newly_cached_hashes p = none := by
    simpa [aggStep] using nc1.trans hnc
  have hns2 : alookup (aggStep mtimeOf nf (aggregate_results s mtimeOf nf st0)
      (p, none)).newly_skipped_info p = some (mtimeOf p) := by
    simp [aggStep, alookup_upsert_self]
  obtain ⟨vh3, nc3, ns3⟩ := aggregate_results_preserves t mtimeOf nf
    (aggStep mtimeOf nf (aggregate_results s mtimeOf nf st0) (p, none)) p hpt
  have hvhF : alookup (aggregate_results (s ++ (p, (none : SampleResult)) :: t)
      mtimeOf nf st0).video_hashes p = none := by
    rw [hsplit]; exact vh3.trans hvh2
  have hncF : alookup (aggregate_results (s ++ (p, (none : SampleResult)) :: t)
      mtimeOf nf st0).newly_cached_hashes p = none := by
    rw [hsplit]; exact nc3.trans hnc2
  have hnsF : alookup (aggregate_results (s ++ (p, (none : SampleResult)) :: t)
      mtimeOf nf st0).newly_skipped_info p = some (mtimeOf p) := by
    rw [hsplit]; exact ns3.trans hns2
  have hndF : ((aggregate_results (s ++ (p, (none : SampleResult)) :: t)
      mtimeOf nf st0).newly_skipped_info.map Prod.fst).Nodup := by
    rw [hsplit]
    apply aggregate_results_nodup_ns
    have hnd1 := aggregate_results_nodup_ns s mtimeOf nf st0 hnsnd
    simpa [aggStep] using nodup_keys_upsert _ p (mtimeOf p) hnd1
  have hcache : alookup (update_cache cache
      (aggregate_results (s ++ (p, (none : SampleResult)) :: t) mtimeOf nf
        st0).newly_cached_hashes
      (aggregate_results (s ++ (p, (none : SampleResult)) :: t) mtimeOf nf
        st0).newly_skipped_info nf hsz) p =
      some ⟨mtimeOf p, nf, hsz, CachePayload.skipped⟩ := by
    simp only [update_cache]
    exact alookup_foldl_upsert_of_some
      (fun e => CacheEntry.mk e.2 nf hsz CachePayload.skipped) _ _ p (mtimeOf p)
      hndF hnsF
  obtain ⟨hl1, hl2⟩ := load_single_skipped _ p mtimeOf nf hsz hcache
  exact ⟨hvhF, hnsF, hcache, hl1, hl2⟩

/-- Witness for C1 (amended) at one concrete failed video. -/
theorem failed_result_is_cached_witness :
    alookup (aggregate_results [("v", none)] (fun _ => 5) 1
      ⟨[], [], [], []⟩).video_hashes "v" = none ∧
    alookup (aggregate_results [("v", none)] (fun _ => 5) 1
      ⟨[], [], [], []⟩).newly_skipped_info "v" = some 5 ∧
    alookup (update_cache []
        (aggregate_results [("v", none)] (fun _ => 5) 1 ⟨[], [], [], []⟩).newly_cached_hashes
        (aggregate_results [("v", none)] (fun _ => 5) 1 ⟨[], [], [], []⟩).newly_skipped_info
        1 8) "v" = some ⟨5, 1, 8, CachePayload.skipped⟩ ∧
    (load_or_check_cache ["v"] (fun _ => 5)
        (update_cache []
          (aggregate_results [("v", none)] (fun _ => 5) 1 ⟨[], [], [], []⟩).newly_cached_hashes
          (aggregate_results [("v", none)] (fun _ => 5) 1 ⟨[], [], [], []⟩).newly_skipped_info
          1 8) 1 8).2.1 = [] ∧
    (load_or_check_cache ["v"] (fun _ => 5)
        (update_cache []
          (aggregate_results [("v", none)] (fun _ => 5) 1 ⟨[], [], [], []⟩).newly_cached_hashes
          (aggregate_results [("v", none)] (fun _ => 5) 1 ⟨[], [], [], []⟩).newly_skipped_info
          1 8) 1 8).2.2.1 = ["v"] :=
  failed_result_is_cached [("v", none)] (fun _ => 5) 1 8 "v" [] ⟨[], [], [], []⟩
    (List.mem_singleton.mpr rfl) (by simp) rfl rfl (by simp)

/-!
### `watched_db_manager`: the watched database

The `shelve` store holds the `watched_videos_data` dict (video identifier →
set of hash strings) and a single global `metadata` record.  The input hash
set already contains strings, so the `str(h)` conversion inside
`add_video_to_watched_db` is the identity on it.
-/

/-- The state of the watched-videos `shelve` database. -/
structure WatchedDB where
  videos : List (String × List String)
  metadata : Option (Nat × Nat)
deriving DecidableEq

/-- `watched_db_manager.add_video_to_watched_db`: an empty identifier is
rejected by the guard at the top of the function; otherwise the entry for
`video_identifier` is inserted or replaced and the global metadata record
is unconditionally rewritten to this call's `(num_frames, hash_size)`. -/
def add_video_to_watched_db (db : WatchedDB) (video_identifier : String)
    (video_hashes_set : List String) (num_frames hash_size : Nat) : WatchedDB :=
  if video_identifier = "" then db
  else
    { videos := upsert db.videos video_identifier video_hashes_set,
      metadata := some (num_frames, hash_size) }

theorem count_keys_upsert {α β : Type} [DecidableEq α]
    (c : List (α × β)) (k : α) (v : β) (h : (c.map Prod.fst).Nodup) :
    ((upsert c k v).filter (fun e => e.1 = k)).length = 1 := by
  induction c with
  | nil => simp [upsert]
  | cons e rest ih =>
    obtain ⟨k0, v0⟩ := e
    simp only [List.map_cons, List.nodup_cons] at h
    by_cases h0 : k0 = k
    · subst h0
      have hrest : rest.filter (fun e => e.1 = k0) = [] := by
        rw [List.filter_eq_nil_iff]
        intro e he
        simp only [decide_eq_true_eq]
        intro hk
        exact h.1 (hk ▸ List.mem_map_of_mem Prod.fst he)
      simp [upsert, List.filter_cons, hrest]
    · simp only [upsert, if_neg h0, List.filter_cons]
      rw [if_neg (by simpa using h0)]
      exact ih h.2

/-- C9: adding the same identifier twice leaves exactly one entry for it
(holding the second call's hash set), and after any sequence of
add-or-update calls whose final call has a non-empty identifier, the stored
global metadata is the `(num_frames, hash_size)` of that most recent
call. -/
theorem watched_db_add_or_update (db : WatchedDB) (id1 : String)
    (A B : List String) (n1 s1 n2 s2 : Nat)
    (calls : List (String × List String × Nat × Nat)) (dbx : WatchedDB)
    (idc : String) (hc : List String) (nc sc : Nat)
    (hid : id1 ≠ "") (hnd : (db.videos.map Prod.fst).Nodup) (hidc : idc ≠ "") :
    (((add_video_to_watched_db (add_video_to_watched_db db id1 A n1 s1)
        id1 B n2 s2).videos.filter (fun e => e.1 = id1)).length = 1 ∧
      alookup (add_video_to_watched_db (add_video_to_watched_db db id1 A n1 s1)
        id1 B n2 s2).videos id1 = some B) ∧
    ((calls ++ [(idc, hc, nc, sc)]).foldl
        (fun d e => add_video_to_watched_db d e.1 e.2.1 e.2.2.1 e.2.2.2)
        dbx).metadata = some (nc, sc) := by
  constructor
  · simp only [add_video_to_watched_db, if_neg hid]
    constructor
    · exact count_keys_upsert _ _ _ (nodup_keys_upsert _ _ _ hnd)
    · exact alookup_upsert_self _ _ _
  · rw [List.foldl_append, List.foldl_cons, List.foldl_nil]
    simp [add_video_to_watched_db, hidc]

/-- Witness for C9 with one concrete database and call sequence. -/
theorem watched_db_add_or_update_witness :
    (((add_video_to_watched_db (add_video_to_watched_db ⟨[], none⟩ "v" ["a"] 1 2)
        "v" ["b"] 3 4).videos.filter (fun e => e.1 = "v")).length = 1 ∧
      alookup (add_video_to_watched_db (add_video_to_watched_db ⟨[], none⟩ "v" ["a"] 1 2)
        "v" ["b"] 3 4).videos "v" = some ["b"]) ∧
    (([("w", ["x"], 7, 9)] ++ [("u", ["y"], 5, 6)]).foldl
        (fun (d : WatchedDB) (e : String × List String × Nat × Nat) =>
          add_video_to_watched_db d e.1 e.2.1 e.2.2.1 e.2.2.2)
        ⟨[], none⟩).metadata = some (5, 6) :=
  watched_db_add_or_update ⟨[], none⟩ "v" ["a"] ["b"] 1 2 3 4
    [("w", ["x"], 7, 9)] ⟨[], none⟩ "u" ["y"] 5 6
    (by decide) (by simp) (by decide)

/-!
### `utils.group_similar_items`: BFS connected-component grouping

Items (video paths) are kept generic in a linearly ordered type so that
`tuple(sorted((u, v)))` is definable.  Python's `set` iteration order is
arbitrary; `all_items` is modelled in first-insertion order (the claims
proved below do not depend on the order).  `defaultdict(list)` adjacency is
an association list where a missing key has the empty neighbour list.
-/

/-- `tuple(sorted((u, v)))`. -/
def sortPair {α : Type} [LinearOrder α] (u v : α) : α × α :=
  if u ≤ v then (u, v) else (v, u)

/-- `adj[u].append(v)` on a `defaultdict(list)`. -/
def adjAppend {α β : Type} [DecidableEq α] (adj : List (α × List β)) (u : α)
    (v : β) : List (α × List β) :=
  match alookup adj u with
  | none => adj ++ [(u, [v])]
  | some l => upsert adj u (l ++ [v])

/-- `adj[u]` on a `defaultdict(list)`: missing keys give `[]`. -/
def neighborsOf {α : Type} [DecidableEq α] (adj : List (α × List α)) (u : α) :
    List α :=
  (alookup adj u).getD []

/-- All items reachable from the adjacency structure (used only as the
finite universe for the BFS termination measure). -/
def adjUniv {α : Type} (adj : List (α × List α)) : List α :=
  adj.map Prod.fst ++ (adj.map Prod.snd).flatten

/-- The state built by the first loop of `group_similar_items`: adjacency
map, item set, and the `pair_similarities` dict keyed by sorted pairs. -/
structure GroupPre (α : Type) where
  adj : List (α × List α)
  all_items : List α
  pair_similarities : List ((α × α) × ℚ)

/-- The first loop of `group_similar_items` (lines 28–35): for every
`(u, v, similarity)` append each endpoint to the other's adjacency list,
add both to the item set, and record the similarity under the sorted
pair key. -/
def buildStep {α : Type} [LinearOrder α] (g : GroupPre α) (t : α × α × ℚ) :
    GroupPre α :=
  { adj := adjAppend (adjAppend g.adj t.1 t.2.1) t.2.1 t.1,
    all_items := setAdd (setAdd g.all_items t.1) t.2.1,
    pair_similarities :=
      upsert g.pair_similarities (sortPair t.1 t.2.1) t.2.2 }

def buildPre {α : Type} [LinearOrder α] (pairs : List (α × α × ℚ)) :
    GroupPre α :=
  pairs.foldl buildStep ⟨[], [], []⟩

theorem length_filter_mono {α : Type} (l : List α) (p q : α → Bool)
    (himp : ∀ x, q x = true → p x = true) :
    (l.filter q).length ≤ (l.filter p).length := by
  induction l with
  | nil => simp
  | cons a rest ih =>
    rw [List.filter_cons, List.filter_cons]
    by_cases hqa : q a = true
    · rw [if_pos hqa, if_pos (himp a hqa)]
      simpa using ih
    · rw [if_neg (by simpa using hqa)]
      split
      · simp only [List.length_cons]
        omega
      · exact ih

theorem length_filter_lt {α : Type} (l : List α) (p q : α → Bool) (n : α)
    (hn : n ∈ l) (hp : p n = true) (hq : q n = false)
    (himp : ∀ x, q x = true → p x = true) :
    (l.filter q).length < (l.filter p).length := by
  induction l with
  | nil => simp at hn
  | cons a rest ih =>
    rw [List.filter_cons, List.filter_cons]
    rcases List.mem_cons.mp hn with rfl | ha
    · rw [if_pos hp, if_neg (by simp [hq])]
      have := length_filter_mono rest p q himp
      simp only [List.length_cons]
      omega
    · by_cases hqa : q a = true
      · rw [if_pos hqa, if_pos (himp a hqa)]
        simpa using ih ha
      · rw [if_neg (by simpa using hqa)]
        by_cases hpa : p a = true
        · rw [if_pos hpa]
          have := ih ha
          simp only [List.length_cons]
          omega
        · rw [if_neg (by simpa using hpa)]
          exact ih ha

/-- The inner `for neighbor in adj[curr]` loop of the BFS (lines 49–52):
unvisited neighbours are marked visited and appended to the queue. -/
def pushNeighbors {α : Type} [DecidableEq α] :
    List α → List α → List α → List α × List α
  | [], visited, q => (visited, q)
  | n :: rest, visited, q =>
    if visited.contains n then pushNeighbors rest visited q
    else pushNeighbors rest (visited ++ [n]) (q ++ [n])

theorem pushNeighbors_measure {α : Type} [DecidableEq α] (univ : List α) :
    ∀ (ns visited q : List α), (∀ n ∈ ns, n ∈ univ) →
    (univ.filter (fun x => !((pushNeighbors ns visited q).1.contains x))).length +
      (pushNeighbors ns visited q).2.length ≤
    (univ.filter (fun x => !(visited.contains x))).length + q.length := by
  intro ns
  induction ns with
  | nil => intro visited q _; simp [pushNeighbors]
  | cons n rest ih =>
    intro visited q hsub
    have hrest : ∀ m ∈ rest, m ∈ univ :=
      fun m hm => hsub m (List.mem_cons_of_mem _ hm)
    by_cases hc : visited.contains n = true
    · simp only [pushNeighbors]
      rw [if_pos hc]
      exact ih visited q hrest
    · have hstep := ih (visited ++ [n]) (q ++ [n]) hrest
      have hdrop : (univ.filter (fun x => !((visited ++ [n]).contains x))).length <
          (univ.filter (fun x => !(visited.contains x))).length := by
        apply length_filter_lt univ _ _ n (hsub n (List.mem_cons_self _ _))
        · simpa using hc
        · simp
        · intro x hx
          have hx' : x ∉ visited ++ [n] := by simpa using hx
          have hxv : x ∉ visited := fun hmem => hx' (List.mem_append_left _ hmem)
          simpa using hxv
      have hql : (q ++ [n]).length = q.length + 1 := by simp
      simp only [pushNeighbors]
      rw [if_neg hc]
      omega

theorem alookup_mem {α β : Type} [DecidableEq α] (l : List (α × β)) (k : α)
    (v : β) (h : alookup l k = some v) : (k, v) ∈ l := by
  induction l with
  | nil => simp [alookup] at h
  | cons e rest ih =>
    obtain ⟨k0, v0⟩ := e
    by_cases h0 : k0 = k
    · subst h0
      have hv : v0 = v := by simpa [alookup] using h
      subst hv
      exact List.mem_cons_self _ _
    · simp only [alookup, if_neg h0] at h
      exact List.mem_cons_of_mem _ (ih h)

theorem neighborsOf_subset_adjUniv {α : Type} [DecidableEq α]
    (adj : List (α × List α)) (u x : α) (hx : x ∈ neighborsOf adj u) :
    x ∈ adjUniv adj := by
  rw [neighborsOf] at hx
  cases h : alookup adj u with
  | none => rw [h] at hx; simp at hx
  | some l =>
    rw [h] at hx
    simp only [Option.getD_some] at hx
    have hmem := alookup_mem adj u l h
    rw [adjUniv]
    refine List.mem_append_right _ ?_
    rw [List.mem_flatten]
    exact ⟨l, List.mem_map_of_mem Prod.snd hmem, hx⟩

/-- The BFS of `group_similar_items` (lines 44–52): pop the queue head,
add it to the current group, push its unvisited neighbours.  Returns
`(current_group, visited)`. -/
def bfsLoop {α : Type} [DecidableEq α] (adj : List (α × List α))
    (q visited group : List α) : List α × List α :=
  match q with
  | [] => (group, visited)
  | curr :: rest =>
    bfsLoop adj (pushNeighbors (neighborsOf adj curr) visited rest).2
      (pushNeighbors (neighborsOf adj curr) visited rest).1
      (setAdd group curr)
termination_by
  ((adjUniv adj).filter (fun x => !(visited.contains x))).length + q.length
decreasing_by
  have := pushNeighbors_measure (adjUniv adj) (neighborsOf adj curr) visited rest
    (fun n hn => neighborsOf_subset_adjUniv adj curr n hn)
  simp only [List.length_cons]
  omega

theorem pushNeighbors_spec {α : Type} [DecidableEq α] :
    ∀ (ns visited q : List α),
    (∀ x ∈ visited, x ∈ (pushNeighbors ns visited q).1) ∧
    (∀ n ∈ ns, n ∈ (pushNeighbors ns visited q).1) ∧
    (∀ x ∈ (pushNeighbors ns visited q).1,
      x ∈ visited ∨ x ∈ (pushNeighbors ns visited q).2) ∧
    (∀ x ∈ q, x ∈ (pushNeighbors ns visited q).2) ∧
    ((∀ x ∈ q, x ∈ visited) →
      ∀ x ∈ (pushNeighbors ns visited q).2, x ∈ (pushNeighbors ns visited q).1) ∧
    (∀ x ∈ (pushNeighbors ns visited q).2, x ∈ q ∨ x ∉ visited) := by
  intro ns
  induction ns with
  | nil =>
    intro visited q
    exact ⟨fun x h => h, by simp, fun x h => Or.inl h, fun x h => h,
      fun hqv x h => hqv x h, fun x h => Or.inl h⟩
  | cons n rest ih =>
    intro visited q
    by_cases hc : visited.contains n = true
    · have hn : n ∈ visited := by simpa using hc
      simp only [pushNeighbors]
      rw [if_pos hc]
      obtain ⟨p1, p2, p3, p4, p5, p6⟩ := ih visited q
      refine ⟨p1, ?_, p3, p4, p5, p6⟩
      intro m hm
      rcases List.mem_cons.mp hm with rfl | hm'
      · exact p1 m hn
      · exact p2 m hm'
    · have hn : n ∉ visited := by simpa using hc
      simp only [pushNeighbors]
      rw [if_neg hc]
      obtain ⟨p1, p2, p3, p4, p5, p6⟩ := ih (visited ++ [n]) (q ++ [n])
      refine ⟨?_, ?_, ?_, ?_, ?_, ?_⟩
      · exact fun x h => p1 x (List.mem_append_left _ h)
      · intro m hm
        rcases List.mem_cons.mp hm with rfl | hm'
        · exact p1 m (List.mem_append_right _ (List.mem_singleton_self _))
        · exact p2 m hm'
      · intro x hx
        rcases p3 x hx with h | h
        · rcases List.mem_append.mp h with h' | h'
          · exact Or.inl h'
          · exact Or.inr (p4 x (List.mem_append_right _ h'))
        · exact Or.inr h
      · exact fun x h => p4 x (List.mem_append_left _ h)
      · intro hqv x hx
        refine p5 ?_ x hx
        intro y hy
        rcases List.mem_append.mp hy with h' | h'
        · exact List.mem_append_left _ (hqv y h')
        · exact List.mem_append_right _ h'
      · intro x hx
        rcases p6 x hx with h | h
        · rcases List.mem_append.mp h with h' | h'
          · exact Or.inl h'
          · rw [List.mem_singleton] at h'
            exact Or.inr (h' ▸ hn)
        · exact Or.inr (fun hv => h (List.mem_append_left _ hv))

theorem bfsLoop_spec {α : Type} [DecidableEq α] (adj : List (α × List α))
    (q visited group : List α) :
    (∀ x ∈ visited, x ∈ (bfsLoop adj q visited group).2) ∧
    (∀ x ∈ group, x ∈ (bfsLoop adj q visited group).1) ∧
    (∀ x ∈ q, x ∈ (bfsLoop adj q visited group).1) ∧
    (∀ x ∈ (bfsLoop adj q visited group).2,
      x ∈ visited ∨ x ∈ (bfsLoop adj q visited group).1) ∧
    (∀ x ∈ (bfsLoop adj q visited group).1, x ∈ group ∨ x ∈ q ∨ x ∉ visited) ∧
    ((∀ x ∈ q, x ∈ visited) → (∀ x ∈ group, x ∈ visited) →
      ∀ x ∈ (bfsLoop adj q visited group).1, x ∈ (bfsLoop adj q visited group).2) ∧
    ((∀ x ∈ group, ∀ y ∈ neighborsOf adj x, y ∈ visited) →
      ∀ x ∈ (bfsLoop adj q visited group).1, ∀ y ∈ neighborsOf adj x,
        y ∈ (bfsLoop adj q visited group).2) ∧
    (group.Nodup → (bfsLoop adj q visited group).1.Nodup) := by
  induction q, visited, group using bfsLoop.induct adj with
  | case1 visited group =>
    simp only [bfsLoop]
    exact ⟨fun x h => h, fun x h => h, by simp, fun x h => Or.inl h,
      fun x h => Or.inl h, fun _ hgv x h => hgv x h,
      fun hcl x hx y hy => hcl x hx y hy, fun h => h⟩
  | case2 visited group curr rest ih =>
    obtain ⟨q1, q2, q3, q4, q5, q6⟩ :=
      pushNeighbors_spec (neighborsOf adj curr) visited rest
    have hstep : bfsLoop adj (curr :: rest) visited group =
        bfsLoop adj (pushNeighbors (neighborsOf adj curr) visited rest).2
          (pushNeighbors (neighborsOf adj curr) visited rest).1
          (setAdd group curr) := by
      rw [bfsLoop]
    rw [hstep]
    obtain ⟨b1, b2, b3, b4, b5, b6, b7, b8⟩ := ih
    refine ⟨?_, ?_, ?_, ?_, ?_, ?_, ?_, ?_⟩
    · exact fun x h => b1 x (q1 x h)
    · exact fun x h => b2 x ((mem_setAdd _ _ _).mpr (Or.inl h))
    · intro x hx
      rcases List.mem_cons.mp hx with rfl | hx'
      · exact b2 x ((mem_setAdd _ _ _).mpr (Or.inr rfl))
      · exact b3 x (q4 x hx')
    · intro x hx
      rcases b4 x hx with h | h
      · rcases q3 x h with h' | h'
        · exact Or.inl h'
        · exact Or.inr (b3 x h')
      · exact Or.inr h
    · intro x hx
      rcases b5 x hx with h | h | h
      · rcases (mem_setAdd _ _ _).mp h with h' | rfl
        · exact Or.inl h'
        · exact Or.inr (Or.inl (List.mem_cons_self _ _))
      · rcases q6 x h with h' | h'
        · exact Or.inr (Or.inl (List.mem_cons_of_mem _ h'))
        · exact Or.inr (Or.inr h')
      · exact Or.inr (Or.inr (fun hv => h (q1 x hv)))
    · intro hqv hgv
      have hqv' : ∀ x ∈ (pushNeighbors (neighborsOf adj curr) visited rest).2,
          x ∈ (pushNeighbors (neighborsOf adj curr) visited rest).1 :=
        q5 (fun x hx => hqv x (List.mem_cons_of_mem _ hx))
      have hgv' : ∀ x ∈ setAdd group curr,
          x ∈ (pushNeighbors (neighborsOf adj curr) visited rest).1 := by
        intro x hx
        rcases (mem_setAdd _ _ _).mp hx with h' | rfl
        · exact q1 x (hgv x h')
        · exact q1 x (hqv x (List.mem_cons_self _ _))
      exact b6 hqv' hgv'
    · intro hcl
      have hcl' : ∀ x ∈ setAdd group curr, ∀ y ∈ neighborsOf adj x,
          y ∈ (pushNeighbors (neighborsOf adj curr) visited rest).1 := by
        intro x hx y hy
        rcases (mem_setAdd _ _ _).mp hx with h' | rfl
        · exact q1 y (hcl x h' y hy)
        · exact q2 y hy
      exact b7 hcl'
    · exact fun h => b8 (nodup_setAdd _ _ h)

/-- `itertools.combinations(group, 2)` over the group in order. -/
def combos {α : Type} : List α → List (α × α)
  | [] => []
  | x :: rest => rest.map (fun y => (x, y)) ++ combos rest

/-- The per-group average of lines 56–68: sum and count the similarities of
those unordered pairs inside the group that appear in `pair_similarities`;
the average is `sum / count`, or `0` for a group with no recorded pair. -/
def groupScore {α : Type} [LinearOrder α] (ps : List ((α × α) × ℚ))
    (group : List α) : ℚ :=
  let within := (combos group).filterMap (fun c => alookup ps (sortPair c.1 c.2))
  if 0 < within.length then within.sum / within.length else 0

/-- The outer `for item in all_items` loop of `group_similar_items`
(lines 40–77): BFS from each unvisited item; components of more than one
item are emitted with their average similarity. -/
def outerLoop {α : Type} [DecidableEq α] [LinearOrder α]
    (adj : List (α × List α)) (ps : List ((α × α) × ℚ)) :
    List α → List α → List (List α × ℚ) → List (List α × ℚ) × List α
  | [], visited, acc => (acc, visited)
  | item :: rest, visited, acc =>
    if visited.contains item then outerLoop adj ps rest visited acc
    else
      let r := bfsLoop adj [item] (setAdd visited item) []
      if 1 < r.1.length then
        outerLoop adj ps rest r.2 (acc ++ [(r.1, groupScore ps r.1)])
      else outerLoop adj ps rest r.2 acc

/-- `utils.group_similar_items(item_pairs_with_similarity)`. -/
def group_similar_items {α : Type} [LinearOrder α]
    (item_pairs_with_similarity : List (α × α × ℚ)) : List (List α × ℚ) :=
  if item_pairs_with_similarity = [] then []
  else
    let pre := buildPre item_pairs_with_similarity
    (outerLoop pre.adj pre.pair_similarities pre.all_items [] []).1

/-- The facts about one BFS launch from an unvisited item that the outer
loop needs. -/
theorem bfs_component_spec {α : Type} [DecidableEq α]
    (adj : List (α × List α)) (visited : List α) (item : α)
    (hitem : item ∉ visited) :
    (∀ x ∈ visited, x ∈ (bfsLoop adj [item] (setAdd visited item) []).2) ∧
    (item ∈ (bfsLoop adj [item] (setAdd visited item) []).1) ∧
    (∀ x ∈ (bfsLoop adj [item] (setAdd visited item) []).2,
      x ∈ visited ∨ x ∈ (bfsLoop adj [item] (setAdd visited item) []).1) ∧
    (∀ x ∈ (bfsLoop adj [item] (setAdd visited item) []).1, x ∉ visited) ∧
    (∀ x ∈ (bfsLoop adj [item] (setAdd visited item) []).1,
      x ∈ (bfsLoop adj [item] (setAdd visited item) []).2) ∧
    (∀ x ∈ (bfsLoop adj [item] (setAdd visited item) []).1,
      ∀ y ∈ neighborsOf adj x, y ∈ (bfsLoop adj [item] (setAdd visited item) []).2) ∧
    (bfsLoop adj [item] (setAdd visited item) []).1.Nodup := by
  obtain ⟨b1, b2, b3, b4, b5, b6, b7, b8⟩ :=
    bfsLoop_spec adj [item] (setAdd visited item) []
  have hq : ∀ x ∈ [item], x ∈ setAdd visited item := by
    intro x hx
    rw [List.mem_singleton] at hx
    exact (mem_setAdd _ _ _).mpr (Or.inr hx)
  refine ⟨?_, ?_, ?_, ?_, ?_, ?_, ?_⟩
  · exact fun x h => b1 x ((mem_setAdd _ _ _).mpr (Or.inl h))
  · exact b3 item (List.mem_singleton_self _)
  · intro x hx
    rcases b4 x hx with h | h
    · rcases (mem_setAdd _ _ _).mp h with h' | rfl
      · exact Or.inl h'
      · exact Or.inr (b3 x (List.mem_singleton_self _))
    · exact Or.inr h
  · intro x hx
    rcases b5 x hx with h | h | h
    · simp at h
    · rw [List.mem_singleton] at h
      exact h ▸ hitem
    · exact fun hv => h ((mem_setAdd _ _ _).mpr (Or.inl hv))
  · exact b6 hq (by simp)
  · exact b7 (by simp)
  · exact b8 List.nodup_nil

/-- The full outer-loop invariant: emitted groups live inside `visited`,
are pairwise disjoint, duplicate-free of size `> 1`; `visited` only grows,
absorbs every processed item, stays closed under adjacency; and — when the
adjacency relation is symmetric — any two distinct adjacent visited items
share an emitted group. -/
theorem outerLoop_spec {α : Type} [DecidableEq α] [LinearOrder α]
    (adj : List (α × List α)) (ps : List ((α × α) × ℚ))
    (hsym : ∀ x y, y ∈ neighborsOf adj x → x ∈ neighborsOf adj y) :
    ∀ (items visited : List α) (acc : List (List α × ℚ)),
    (∀ g ∈ acc, ∀ x ∈ g.1, x ∈ visited) →
    acc.Pairwise (fun g1 g2 => ∀ x ∈ g1.1, x ∉ g2.1) →
    (∀ g ∈ acc, g.1.Nodup ∧ 1 < g.1.length) →
    (∀ x ∈ visited, ∀ y ∈ neighborsOf adj x, y ∈ visited) →
    (∀ x ∈ visited, ∀ y ∈ neighborsOf adj x, y ≠ x →
      ∃ g ∈ acc, x ∈ g.1 ∧ y ∈ g.1) →
    (∀ g ∈ (outerLoop adj ps items visited acc).1, ∀ x ∈ g.1,
      x ∈ (outerLoop adj ps items visited acc).2) ∧
    (outerLoop adj ps items visited acc).1.Pairwise
      (fun g1 g2 => ∀ x ∈ g1.1, x ∉ g2.1) ∧
    (∀ g ∈ (outerLoop adj ps items visited acc).1,
      g.1.Nodup ∧ 1 < g.1.length) ∧
    (∀ x ∈ items, x ∈ (outerLoop adj ps items visited acc).2) ∧
    (∀ x ∈ visited, x ∈ (outerLoop adj ps items visited acc).2) ∧
    (∀ x ∈ (outerLoop adj ps items visited acc).2,
      ∀ y ∈ neighborsOf adj x, y ≠ x →
      ∃ g ∈ (outerLoop adj ps items visited acc).1, x ∈ g.1 ∧ y ∈ g.1) := by
  intro items
  induction items with
  | nil =>
    intro visited acc hsub hpw hsz hclosed hinv
    simp only [outerLoop]
    exact ⟨hsub, hpw, hsz, by simp, fun x h => h, hinv⟩
  | cons item rest ih =>
    intro visited acc hsub hpw hsz hclosed hinv
    by_cases hc : visited.contains item = true
    · have hmem : item ∈ visited := by simpa using hc
      simp only [outerLoop]
      rw [if_pos hc]
      obtain ⟨o1, o2, o3, o4, o5, o6⟩ := ih visited acc hsub hpw hsz hclosed hinv
      refine ⟨o1, o2, o3, ?_, o5, o6⟩
      intro x hx
      rcases List.mem_cons.mp hx with rfl | hx'
      · exact o5 x hmem
      · exact o4 x hx'
    · have hitem : item ∉ visited := by simpa using hc
      obtain ⟨c1, c2, c3, c4, c5, c6, c7⟩ := bfs_component_spec adj visited item hitem
      have hclosed' : ∀ x ∈ (bfsLoop adj [item] (setAdd visited item) []).2,
          ∀ y ∈ neighborsOf adj x, y ∈ (bfsLoop adj [item] (setAdd visited item) []).2 := by
        intro x hx y hy
        rcases c3 x hx with h | h
        · exact c1 y (hclosed x h y hy)
        · exact c6 x h y hy
      by_cases hbig : 1 < (bfsLoop adj [item] (setAdd visited item) []).1.length
      · have hsub' : ∀ g ∈ acc ++ [((bfsLoop adj [item] (setAdd visited item) []).1,
            groupScore ps (bfsLoop adj [item] (setAdd visited item) []).1)],
            ∀ x ∈ g.1, x ∈ (bfsLoop adj [item] (setAdd visited item) []).2 := by
          intro g hg x hx
          rcases List.mem_append.mp hg with h | h
          · exact c1 x (hsub g h x hx)
          · rw [List.mem_singleton] at h
            subst h
            exact c5 x hx
        have hpw' : (acc ++ [((bfsLoop adj [item] (setAdd visited item) []).1,
            groupScore ps (bfsLoop adj [item] (setAdd visited item) []).1)]).Pairwise
            (fun g1 g2 => ∀ x ∈ g1.1, x ∉ g2.1) := by
          rw [List.pairwise_append]
          refine ⟨hpw, List.pairwise_singleton _ _, ?_⟩
          intro ga hga gb hgb x hxa
          rw [List.mem_singleton] at hgb
          subst hgb
          exact fun hxb => c4 x hxb (hsub ga hga x hxa)
        have hsz' : ∀ g ∈ acc ++ [((bfsLoop adj [item] (setAdd visited item) []).1,
            groupScore ps (bfsLoop adj [item] (setAdd visited item) []).1)],
            g.1.Nodup ∧ 1 < g.1.length := by
          intro g hg
          rcases List.mem_append.mp hg with h | h
          · exact hsz g h
          · rw [List.mem_singleton] at h
            subst h
            exact ⟨c7, hbig⟩
        have hinv' : ∀ x ∈ (bfsLoop adj [item] (setAdd visited item) []).2,
            ∀ y ∈ neighborsOf adj x, y ≠ x →
            ∃ g ∈ acc ++ [((bfsLoop adj [item] (setAdd visited item) []).1,
              groupScore ps (bfsLoop adj [item] (setAdd visited item) []).1)],
              x ∈ g.1 ∧ y ∈ g.1 := by
          intro x hx y hy hyx
          rcases c3 x hx with h | h
          · obtain ⟨g0, hg0, hxg0, hyg0⟩ := hinv x h y hy hyx
            exact ⟨g0, List.mem_append_left _ hg0, hxg0, hyg0⟩
          · have hyv : y ∈ (bfsLoop adj [item] (setAdd visited item) []).2 := c6 x h y hy
            rcases c3 y hyv with h' | h'
            · exfalso
              obtain ⟨g0, hg0, hyg0, hxg0⟩ :=
                hinv y h' x (hsym x y hy) (fun hxy => hyx hxy.symm)
              exact c4 x h (hsub g0 hg0 x hxg0)
            · exact ⟨((bfsLoop adj [item] (setAdd visited item) []).1,
                groupScore ps (bfsLoop adj [item] (setAdd visited item) []).1),
                List.mem_append_right _ (List.mem_singleton_self _), h, h'⟩
        obtain ⟨o1, o2, o3, o4, o5, o6⟩ := ih (bfsLoop adj [item] (setAdd visited item) []).2
          (acc ++ [((bfsLoop adj [item] (setAdd visited item) []).1,
            groupScore ps (bfsLoop adj [item] (setAdd visited item) []).1)])
          hsub' hpw' hsz' hclosed' hinv'
        simp only [outerLoop]
        rw [if_neg hc]
        rw [if_pos hbig]
        refine ⟨o1, o2, o3, ?_, fun x h => o5 x (c1 x h), o6⟩
        intro x hx
        rcases List.mem_cons.mp hx with rfl | hx'
        · exact o5 x (c5 x c2)
        · exact o4 x hx'
      · have hsing : ∀ x ∈ (bfsLoop adj [item] (setAdd visited item) []).1, x = item := by
          intro x hx
          match hg : (bfsLoop adj [item] (setAdd visited item) []).1 with
          | [] =>
            rw [hg] at hx
            simp at hx
          | [w] =>
            rw [hg] at hx c2
            rw [List.mem_singleton] at hx c2
            rw [hx, c2]
          | w1 :: w2 :: ws =>
            rw [hg] at hbig
            simp at hbig
        have hinv' : ∀ x ∈ (bfsLoop adj [item] (setAdd visited item) []).2,
            ∀ y ∈ neighborsOf adj x, y ≠ x → ∃ g ∈ acc, x ∈ g.1 ∧ y ∈ g.1 := by
          intro x hx y hy hyx
          rcases c3 x hx with h | h
          · exact hinv x h y hy hyx
          · have hxi : x = item := hsing x h
            have hyv : y ∈ (bfsLoop adj [item] (setAdd visited item) []).2 := c6 x h y hy
            rcases c3 y hyv with h' | h'
            · exfalso
              obtain ⟨g0, hg0, hyg0, hxg0⟩ :=
                hinv y h' x (hsym x y hy) (fun hxy => hyx hxy.symm)
              exact c4 x h (hsub g0 hg0 x hxg0)
            · exact absurd (hsing y h') (hxi ▸ hyx)
        obtain ⟨o1, o2, o3, o4, o5, o6⟩ := ih (bfsLoop adj [item] (setAdd visited item) []).2
          acc (fun g hg x hx => c1 x (hsub g hg x hx)) hpw hsz hclosed' hinv'
        simp only [outerLoop]
        rw [if_neg hc]
        rw [if_neg hbig]
        refine ⟨o1, o2, o3, ?_, fun x h => o5 x (c1 x h), o6⟩
        intro x hx
        rcases List.mem_cons.mp hx with rfl | hx'
        · exact o5 x (c5 x c2)
        · exact o4 x hx'

theorem alookup_append_some {α β : Type} [DecidableEq α]
    (l1 l2 : List (α × β)) (k : α) (v : β) (h : alookup l1 k = some v) :
    alookup (l1 ++ l2) k = some v := by
  induction l1 with
  | nil => simp [alookup] at h
  | cons e rest ih =>
    obtain ⟨k0, v0⟩ := e
    by_cases h0 : k0 = k
    · subst h0
      have hv : v0 = v := by simpa [alookup] using h
      subst hv
      simp [alookup]
    · simp only [alookup, if_neg h0] at h
      simpa [alookup, if_neg h0] using ih h

theorem alookup_append_none {α β : Type} [DecidableEq α]
    (l1 l2 : List (α × β)) (k : α) (h : alookup l1 k = none) :
    alookup (l1 ++ l2) k = alookup l2 k := by
  induction l1 with
  | nil => simp
  | cons e rest ih =>
    obtain ⟨k0, v0⟩ := e
    by_cases h0 : k0 = k
    · subst h0
      simp [alookup] at h
    · simp only [alookup, if_neg h0] at h
      simpa [alookup, if_neg h0] using ih h

theorem mem_neighborsOf_adjAppend {α : Type} [DecidableEq α]
    (adj : List (α × List α)) (u v x y : α) :
    y ∈ neighborsOf (adjAppend adj u v) x ↔
      y ∈ neighborsOf adj x ∨ (x = u ∧ y = v) := by
  rw [adjAppend]
  cases hu : alookup adj u with
  | none =>
    by_cases hx : x = u
    · subst hx
      have hl : alookup (adj ++ [(x, [v])]) x = some [v] := by
        rw [alookup_append_none _ _ _ hu]
        simp [alookup]
      simp [neighborsOf, hl, hu]
    · cases hax : alookup adj x with
      | none =>
        have hl : alookup (adj ++ [(u, [v])]) x = none := by
          rw [alookup_append_none _ _ _ hax]
          simp only [alookup]
          rw [if_neg (show ¬ u = x from fun h => hx h.symm)]
        simp [neighborsOf, hl, hax, hx]
      | some l =>
        have hl : alookup (adj ++ [(u, [v])]) x = some l :=
          alookup_append_some _ _ _ _ hax
        simp [neighborsOf, hl, hax, hx]
  | some l =>
    by_cases hx : x = u
    · subst hx
      have hl : alookup (upsert adj x (l ++ [v])) x = some (l ++ [v]) :=
        alookup_upsert_self _ _ _
      simp [neighborsOf, hl, hu]
    · have hl : alookup (upsert adj u (l ++ [v])) x = alookup adj x :=
        alookup_upsert_ne _ _ _ _ (fun h => hx h.symm)
      simp [neighborsOf, hl, hx]

theorem buildPre_adj_spec {α : Type} [LinearOrder α] (pairs : List (α × α × ℚ)) :
    ∀ (g0 : GroupPre α) (x y : α),
    y ∈ neighborsOf (pairs.foldl buildStep g0).adj x ↔
      y ∈ neighborsOf g0.adj x ∨
        ∃ t ∈ pairs, (x = t.1 ∧ y = t.2.1) ∨ (x = t.2.1 ∧ y = t.1) := by
  induction pairs with
  | nil => intro g0 x y; simp
  | cons t rest ih =>
    intro g0 x y
    rw [List.foldl_cons, ih (buildStep g0 t) x y]
    constructor
    · rintro (h | ⟨t', ht', h⟩)
      · rw [buildStep] at h
        simp only at h
        rw [mem_neighborsOf_adjAppend, mem_neighborsOf_adjAppend] at h
        rcases h with (h | h) | h
        · exact Or.inl h
        · exact Or.inr ⟨t, List.mem_cons_self _ _, Or.inl h⟩
        · exact Or.inr ⟨t, List.mem_cons_self _ _, Or.inr h⟩
      · exact Or.inr ⟨t', List.mem_cons_of_mem _ ht', h⟩
    · have hup : ∀ z w, z ∈ neighborsOf g0.adj w →
          z ∈ neighborsOf (buildStep g0 t).adj w := by
        intro z w hz
        rw [buildStep]
        simp only
        rw [mem_neighborsOf_adjAppend, mem_neighborsOf_adjAppend]
        exact Or.inl (Or.inl hz)
      rintro (h | ⟨t', ht', h⟩)
      · exact Or.inl (hup y x h)
      · rcases List.mem_cons.mp ht' with rfl | ht''
        · refine Or.inl ?_
          rw [buildStep]
          simp only
          rw [mem_neighborsOf_adjAppend, mem_neighborsOf_adjAppend]
          rcases h with h | h
          · exact Or.inl (Or.inr h)
          · exact Or.inr h
        · exact Or.inr ⟨t', ht'', h⟩

theorem buildPre_symm {α : Type} [LinearOrder α] (pairs : List (α × α × ℚ)) :
    ∀ x y, y ∈ neighborsOf (buildPre pairs).adj x →
      x ∈ neighborsOf (buildPre pairs).adj y := by
  intro x y h
  rw [buildPre, buildPre_adj_spec] at h ⊢
  rcases h with h | ⟨t, ht, h⟩
  · simp [neighborsOf, alookup] at h
  · refine Or.inr ⟨t, ht, ?_⟩
    rcases h with ⟨h1, h2⟩ | ⟨h1, h2⟩
    · exact Or.inr ⟨h2, h1⟩
    · exact Or.inl ⟨h2, h1⟩

theorem buildPre_edge {α : Type} [LinearOrder α] (pairs : List (α × α × ℚ))
    (u v : α) (s : ℚ) (h : (u, v, s) ∈ pairs) :
    v ∈ neighborsOf (buildPre pairs).adj u ∧
    u ∈ neighborsOf (buildPre pairs).adj v := by
  constructor
  · rw [buildPre, buildPre_adj_spec]
    exact Or.inr ⟨(u, v, s), h, Or.inl ⟨rfl, rfl⟩⟩
  · rw [buildPre, buildPre_adj_spec]
    exact Or.inr ⟨(u, v, s), h, Or.inr ⟨rfl, rfl⟩⟩

theorem buildPre_items_spec {α : Type} [LinearOrder α]
    (pairs : List (α × α × ℚ)) :
    ∀ (g0 : GroupPre α) (x : α),
    x ∈ (pairs.foldl buildStep g0).all_items ↔
      x ∈ g0.all_items ∨ ∃ t ∈ pairs, x = t.1 ∨ x = t.2.1 := by
  induction pairs with
  | nil => intro g0 x; simp
  | cons t rest ih =>
    intro g0 x
    rw [List.foldl_cons, ih (buildStep g0 t) x]
    rw [buildStep]
    simp only
    rw [mem_setAdd, mem_setAdd]
    constructor
    · rintro (((h | h) | h) | ⟨t', ht', h⟩)
      · exact Or.inl h
      · exact Or.inr ⟨t, List.mem_cons_self _ _, Or.inl h⟩
      · exact Or.inr ⟨t, List.mem_cons_self _ _, Or.inr h⟩
      · exact Or.inr ⟨t', List.mem_cons_of_mem _ ht', h⟩
    · rintro (h | ⟨t', ht', h⟩)
      · exact Or.inl (Or.inl (Or.inl h))
      · rcases List.mem_cons.mp ht' with rfl | ht''
        · rcases h with h | h
          · exact Or.inl (Or.inl (Or.inr h))
          · exact Or.inl (Or.inr h)
        · exact Or.inr ⟨t', ht'', h⟩

theorem pairwise_disjoint_eq {α : Type} (l : List (List α × ℚ))
    (hpw : l.Pairwise (fun g1 g2 => ∀ x ∈ g1.1, x ∉ g2.1))
    (g1 g2 : List α × ℚ) (hg1 : g1 ∈ l) (hg2 : g2 ∈ l) (x : α)
    (hx1 : x ∈ g1.1) (hx2 : x ∈ g2.1) : g1 = g2 := by
  by_contra hne
  have hsymm : Symmetric (fun (g1 g2 : List α × ℚ) => ∀ x ∈ g1.1, x ∉ g2.1) := by
    intro u w h z hzw hzu
    exact h z hzu hzw
  exact (hpw.forall hsymm hg1 hg2 hne) x hx1 hx2

/-- C10: for every input list of similarity pairs, the groups returned by
`group_similar_items` are pairwise disjoint (no item occurs in two groups)
and every returned group holds at least two distinct items. -/
theorem group_similar_items_invariants {α : Type} [LinearOrder α]
    (pairs : List (α × α × ℚ)) :
    (group_similar_items pairs).Pairwise (fun g1 g2 => ∀ x ∈ g1.1, x ∉ g2.1) ∧
    ∀ g ∈ group_similar_items pairs, g.1.Nodup ∧ 2 ≤ g.1.length := by
  by_cases hne : pairs = []
  · simp [group_similar_items, hne]
  · have hout : group_similar_items pairs =
        (outerLoop (buildPre pairs).adj (buildPre pairs).pair_similarities
          (buildPre pairs).all_items [] []).1 := by
      simp only [group_similar_items, if_neg hne]
    rw [hout]
    obtain ⟨o1, o2, o3, o4, o5, o6⟩ :=
      outerLoop_spec (buildPre pairs).adj (buildPre pairs).pair_similarities
        (buildPre_symm pairs) (buildPre pairs).all_items [] []
        (by simp) List.Pairwise.nil (by simp) (by simp) (by simp)
    exact ⟨o2, fun g hg => o3 g hg⟩

/-- Transitive grouping: kept pairs `(a,b)` and `(b,c)` force `a`, `b`, `c`
into one output group. -/
theorem grouping_transitive {α : Type} [LinearOrder α]
    (pairs : List (α × α × ℚ)) (a b c : α) (s1 s2 : ℚ)
    (hab : (a, b, s1) ∈ pairs) (hbc : (b, c, s2) ∈ pairs)
    (hne1 : a ≠ b) (hne2 : b ≠ c) :
    ∃ g ∈ group_similar_items pairs, a ∈ g.1 ∧ b ∈ g.1 ∧ c ∈ g.1 := by
  have hne : pairs ≠ [] := by rintro rfl; simp at hab
  have hout : group_similar_items pairs =
      (outerLoop (buildPre pairs).adj (buildPre pairs).pair_similarities
        (buildPre pairs).all_items [] []).1 := by
    simp only [group_similar_items, if_neg hne]
  rw [hout]
  obtain ⟨o1, o2, o3, o4, o5, o6⟩ :=
    outerLoop_spec (buildPre pairs).adj (buildPre pairs).pair_similarities
      (buildPre_symm pairs) (buildPre pairs).all_items [] []
      (by simp) List.Pairwise.nil (by simp) (by simp) (by simp)
  have haitems : a ∈ (buildPre pairs).all_items := by
    rw [buildPre, buildPre_items_spec]
    exact Or.inr ⟨(a, b, s1), hab, Or.inl rfl⟩
  have hav := o4 a haitems
  have hbn : b ∈ neighborsOf (buildPre pairs).adj a := (buildPre_edge pairs a b s1 hab).1
  obtain ⟨g1, hg1, hag1, hbg1⟩ := o6 a hav b hbn (fun h => hne1 h.symm)
  have hbv := o1 g1 hg1 b hbg1
  have hcn : c ∈ neighborsOf (buildPre pairs).adj b := (buildPre_edge pairs b c s2 hbc).1
  obtain ⟨g2, hg2, hbg2, hcg2⟩ := o6 b hbv c hcn (fun h => hne2 h.symm)
  have hgeq : g1 = g2 := pairwise_disjoint_eq _ o2 g1 g2 hg1 hg2 b hbg1 hbg2
  exact ⟨g1, hg1, hag1, hbg1, hgeq ▸ hcg2⟩

/-!
### `utils.bktree`: the BK-tree

The Python class takes an arbitrary `distance_func`; both call sites pass
`lambda h1, h2: h1 - h2`, the Hamming distance on `ImageHash` objects,
which the embedding fixes.  A node holds an item and a children dict keyed
by integer distance, modelled as an association list.
-/

inductive BKNode : Type where
  | mk : FrameHash → List (Nat × BKNode) → BKNode

def BKNode.item : BKNode → FrameHash
  | .mk v _ => v

def BKNode.children : BKNode → List (Nat × BKNode)
  | .mk _ cs => cs

mutual
/-- `BKTree.add` from an existing node: descend by exact distance; distance
`0` to the current node is a no-op (the hash is already stored); a missing
child bucket receives a new leaf. -/
def BKNode.add : BKNode → FrameHash → BKNode
  | .mk v cs, x =>
    if hamming x v = 0 then .mk v cs
    else .mk v (addChild cs (hamming x v) x)

/-- Helper of `BKNode.add`: `current.children[distance]` descent. -/
def addChild : List (Nat × BKNode) → Nat → FrameHash → List (Nat × BKNode)
  | [], d, x => [(d, .mk x [])]
  | (k, c) :: rest, d, x =>
    if k = d then (k, BKNode.add c x) :: rest
    else (k, c) :: addChild rest d x
end

mutual
/-- All hashes stored in a subtree. -/
def BKNode.elems : BKNode → List FrameHash
  | .mk v cs => v :: elemsChildren cs

def elemsChildren : List (Nat × BKNode) → List FrameHash
  | [] => []
  | (_, c) :: rest => BKNode.elems c ++ elemsChildren rest
end

mutual
/-- Node count of a subtree (termination measure for the traversals). -/
def BKNode.size : BKNode → Nat
  | .mk _ cs => 1 + sizeChildren cs

def sizeChildren : List (Nat × BKNode) → Nat
  | [] => 0
  | (_, c) :: rest => BKNode.size c + sizeChildren rest
end

theorem BKNode.size_pos (t : BKNode) : 1 ≤ t.size := by
  match t with
  | .mk v cs => rw [BKNode.size]; omega

theorem BKNode.size_eq (t : BKNode) : t.size = 1 + sizeChildren t.children := by
  match t with
  | .mk v cs => rfl

theorem sizeChildren_filter_le (cs : List (Nat × BKNode))
    (p : Nat × BKNode → Bool) :
    (((cs.filter p).map Prod.snd).map BKNode.size).sum ≤ sizeChildren cs := by
  induction cs with
  | nil => simp [sizeChildren]
  | cons e rest ih =>
    obtain ⟨k, c⟩ := e
    rw [List.filter_cons]
    split
    · simp only [List.map_cons, List.sum_cons, sizeChildren]
      omega
    · rw [sizeChildren]
      omega

theorem mem_elemsChildren (cs : List (Nat × BKNode)) (y : FrameHash) :
    y ∈ elemsChildren cs ↔ ∃ p ∈ cs, y ∈ p.2.elems := by
  induction cs with
  | nil => simp [elemsChildren]
  | cons e rest ih =>
    obtain ⟨k, c⟩ := e
    rw [elemsChildren, List.mem_append, ih]
    constructor
    · rintro (h | ⟨p, hp, h⟩)
      · exact ⟨(k, c), List.mem_cons_self _ _, h⟩
      · exact ⟨p, List.mem_cons_of_mem _ hp, h⟩
    · rintro ⟨p, hp, h⟩
      rcases List.mem_cons.mp hp with rfl | hp'
      · exact Or.inl h
      · exact Or.inr ⟨p, hp', h⟩

theorem size_child_le (cs : List (Nat × BKNode)) (p : Nat × BKNode)
    (hp : p ∈ cs) : p.2.size ≤ sizeChildren cs := by
  induction cs with
  | nil => simp at hp
  | cons e rest ih =>
    obtain ⟨k, c⟩ := e
    rw [sizeChildren]
    rcases List.mem_cons.mp hp with rfl | hp'
    · show BKNode.size c ≤ BKNode.size c + sizeChildren rest
      omega
    · have := ih hp'
      omega

/-- Well-formedness over bit-length `n`: stored hashes have length `n`,
child keys are distinct, and every hash in the bucket at key `k` is at
distance exactly `k` from this node's hash. -/
inductive WF (n : Nat) : BKNode → Prop where
  | mk (v : FrameHash) (cs : List (Nat × BKNode)) :
      v.length = n →
      (cs.map Prod.fst).Nodup →
      (∀ p ∈ cs, WF n p.2) →
      (∀ p ∈ cs, ∀ x ∈ BKNode.elems p.2, hamming x v = p.1) →
      WF n (.mk v cs)

theorem WF.elems_length {n : Nat} : ∀ (t : BKNode), WF n t →
    ∀ x ∈ t.elems, x.length = n := by
  intro t hwf x hx
  match t with
  | .mk v cs =>
    rcases hwf with ⟨_, _, hv, hnd, hch1, hch2⟩
    rw [BKNode.elems] at hx
    rcases List.mem_cons.mp hx with rfl | hx'
    · exact hv
    · obtain ⟨p, hp, hxe⟩ := (mem_elemsChildren cs x).mp hx'
      have hlt : p.2.size < (BKNode.mk v cs).size := by
        have h1 := size_child_le cs p hp
        have h2 : (BKNode.mk v cs).size = 1 + sizeChildren cs := rfl
        omega
      exact WF.elems_length p.2 (hch1 p hp) x hxe
termination_by t => t.size

theorem mem_keys_addChild (cs : List (Nat × BKNode)) (d : Nat) (x : FrameHash)
    (k' : Nat) (h : k' ∈ (addChild cs d x).map Prod.fst) :
    k' ∈ cs.map Prod.fst ∨ k' = d := by
  induction cs with
  | nil =>
    rw [addChild] at h
    simp only [List.map_cons, List.map_nil, List.mem_singleton] at h
    exact Or.inr h
  | cons e rest ih =>
    obtain ⟨k, c⟩ := e
    rw [addChild] at h
    by_cases hk : k = d
    · rw [if_pos hk] at h
      simp only [List.map_cons, List.mem_cons] at h ⊢
      tauto
    · rw [if_neg hk] at h
      simp only [List.map_cons, List.mem_cons] at h ⊢
      rcases h with h | h
      · exact Or.inl (Or.inl h)
      · rcases ih h with h' | h'
        · exact Or.inl (Or.inr h')
        · exact Or.inr h'

theorem nodup_keys_addChild (cs : List (Nat × BKNode)) (d : Nat) (x : FrameHash)
    (h : (cs.map Prod.fst).Nodup) : ((addChild cs d x).map Prod.fst).Nodup := by
  induction cs with
  | nil =>
    rw [addChild]
    simp
  | cons e rest ih =>
    obtain ⟨k, c⟩ := e
    simp only [List.map_cons, List.nodup_cons] at h
    rw [addChild]
    by_cases hk : k = d
    · rw [if_pos hk]
      simp only [List.map_cons, List.nodup_cons]
      exact h
    · rw [if_neg hk]
      simp only [List.map_cons, List.nodup_cons]
      refine ⟨?_, ih h.2⟩
      intro hc
      rcases mem_keys_addChild rest d x k hc with h' | h'
      · exact h.1 h'
      · exact hk h'

theorem WF.item_len {n : Nat} {v : FrameHash} {cs : List (Nat × BKNode)}
    (h : WF n (.mk v cs)) : v.length = n := by cases h; assumption

theorem WF.keys_nodup {n : Nat} {v : FrameHash} {cs : List (Nat × BKNode)}
    (h : WF n (.mk v cs)) : (cs.map Prod.fst).Nodup := by cases h; assumption

theorem WF.child_wf {n : Nat} {v : FrameHash} {cs : List (Nat × BKNode)}
    (h : WF n (.mk v cs)) : ∀ p ∈ cs, WF n p.2 := by cases h; assumption

theorem WF.child_dist {n : Nat} {v : FrameHash} {cs : List (Nat × BKNode)}
    (h : WF n (.mk v cs)) :
    ∀ p ∈ cs, ∀ x ∈ BKNode.elems p.2, hamming x v = p.1 := by
  cases h; assumption

mutual

theorem mem_elems_add {n : Nat} : ∀ (t : BKNode), WF n t → ∀ (x : FrameHash),
    x.length = n → ∀ (y : FrameHash),
    (y ∈ (t.add x).elems ↔ y ∈ t.elems ∨ y = x)
  | .mk v cs, hwf, x, hx, y => by
    rw [BKNode.add]
    by_cases h0 : hamming x v = 0
    · rw [if_pos h0]
      have hxv : x = v := eq_of_hamming_eq_zero (hx.trans hwf.item_len.symm) h0
      constructor
      · exact Or.inl
      · rintro (h | rfl)
        · exact h
        · rw [hxv, BKNode.elems]
          exact List.mem_cons_self _ _
    · rw [if_neg h0]
      rw [BKNode.elems, BKNode.elems, List.mem_cons, List.mem_cons]
      rw [mem_elemsChildren_addChild cs hwf.child_wf (hamming x v) x hx y]
      tauto
termination_by t => 2 * t.size
decreasing_by
  have h2 : (BKNode.mk v cs).size = 1 + sizeChildren cs := rfl
  omega

theorem mem_elemsChildren_addChild {n : Nat} :
    ∀ (cs : List (Nat × BKNode)), (∀ p ∈ cs, WF n p.2) →
    ∀ (d : Nat) (x : FrameHash), x.length = n → ∀ (y : FrameHash),
    (y ∈ elemsChildren (addChild cs d x) ↔ y ∈ elemsChildren cs ∨ y = x)
  | [], hch, d, x, hx, y => by
    rw [addChild]
    simp [elemsChildren, BKNode.elems]
  | (k, c) :: rest, hch, d, x, hx, y => by
    rw [addChild]
    by_cases hk : k = d
    · rw [if_pos hk]
      rw [elemsChildren, elemsChildren, List.mem_append, List.mem_append]
      rw [mem_elems_add c (hch (k, c) (List.mem_cons_self _ _)) x hx y]
      tauto
    · rw [if_neg hk]
      rw [elemsChildren, elemsChildren, List.mem_append, List.mem_append]
      rw [mem_elemsChildren_addChild rest
        (fun p hp => hch p (List.mem_cons_of_mem _ hp)) d x hx y]
      tauto
termination_by cs => 2 * sizeChildren cs + 1
decreasing_by
  all_goals
    (have h2 : sizeChildren ((k, c) :: rest) = BKNode.size c + sizeChildren rest := rfl
     have h3 := BKNode.size_pos c
     omega)

end

mutual

theorem wf_add {n : Nat} : ∀ (t : BKNode), WF n t → ∀ (x : FrameHash),
    x.length = n → WF n (t.add x)
  | .mk v cs, hwf, x, hx => by
    rw [BKNode.add]
    by_cases h0 : hamming x v = 0
    · rw [if_pos h0]
      exact hwf
    · rw [if_neg h0]
      obtain ⟨hw1, hw2⟩ := wf_addChild cs v hwf.child_wf hwf.child_dist
        (hamming x v) x hx rfl
      exact WF.mk v _ hwf.item_len
        (nodup_keys_addChild cs (hamming x v) x hwf.keys_nodup) hw1 hw2
termination_by t => 2 * t.size
decreasing_by
  have h2 : (BKNode.mk v cs).size = 1 + sizeChildren cs := rfl
  omega

theorem wf_addChild {n : Nat} :
    ∀ (cs : List (Nat × BKNode)) (v : FrameHash),
    (∀ p ∈ cs, WF n p.2) →
    (∀ p ∈ cs, ∀ z ∈ BKNode.elems p.2, hamming z v = p.1) →
    ∀ (d : Nat) (x : FrameHash), x.length = n → hamming x v = d →
    (∀ p ∈ addChild cs d x, WF n p.2) ∧
    (∀ p ∈ addChild cs d x, ∀ z ∈ BKNode.elems p.2, hamming z v = p.1)
  | [], v, hch1, hch2, d, x, hx, hd => by
    rw [addChild]
    constructor
    · intro p hp
      rw [List.mem_singleton] at hp
      subst hp
      exact WF.mk x [] hx List.nodup_nil (by simp) (by simp)
    · intro p hp z hz
      rw [List.mem_singleton] at hp
      subst hp
      rw [BKNode.elems] at hz
      rcases List.mem_cons.mp hz with rfl | hz'
      · exact hd
      · rw [elemsChildren] at hz'
        simp at hz'
  | (k, c) :: rest, v, hch1, hch2, d, x, hx, hd => by
    rw [addChild]
    by_cases hk : k = d
    · rw [if_pos hk]
      have hcwf := hch1 (k, c) (List.mem_cons_self _ _)
      constructor
      · intro p hp
        rcases List.mem_cons.mp hp with rfl | hp'
        · exact wf_add c hcwf x hx
        · exact hch1 p (List.mem_cons_of_mem _ hp')
      · intro p hp z hz
        rcases List.mem_cons.mp hp with rfl | hp'
        · rcases (mem_elems_add c hcwf x hx z).mp hz with h | rfl
          · exact hch2 (k, c) (List.mem_cons_self _ _) z h
          · show hamming z v = k
            exact hd.trans hk.symm
        · exact hch2 p (List.mem_cons_of_mem _ hp') z hz
    · rw [if_neg hk]
      obtain ⟨ih1, ih2⟩ := wf_addChild rest v
        (fun p hp => hch1 p (List.mem_cons_of_mem _ hp))
        (fun p hp => hch2 p (List.mem_cons_of_mem _ hp)) d x hx hd
      constructor
      · intro p hp
        rcases List.mem_cons.mp hp with rfl | hp'
        · exact hch1 (k, c) (List.mem_cons_self _ _)
        · exact ih1 p hp'
      · intro p hp z hz
        rcases List.mem_cons.mp hp with rfl | hp'
        · exact hch2 (k, c) (List.mem_cons_self _ _) z hz
        · exact ih2 p hp' z hz
termination_by cs => 2 * sizeChildren cs + 1
decreasing_by
  all_goals
    (have h2 : sizeChildren ((k, c) :: rest) = BKNode.size c + sizeChildren rest := rfl
     have h3 := BKNode.size_pos c
     omega)

end

/-- `BKTree.query`'s breadth-first worklist (lines 28–46): pop the head
candidate, record its item when its distance is within `max_distance`, and
enqueue every child whose bucket key `k` satisfies
`distance - max_distance <= k <= distance + max_distance`. -/
def queryLoop (q : FrameHash) (max_distance : ℤ) :
    List BKNode → List (Nat × FrameHash) → List (Nat × FrameHash)
  | [], results => results
  | node :: rest, results =>
    queryLoop q max_distance
      (rest ++ (node.children.filter (fun p =>
        (hamming q node.item : ℤ) - max_distance ≤ (p.1 : ℤ) ∧
          (p.1 : ℤ) ≤ (hamming q node.item : ℤ) + max_distance)).map Prod.snd)
      (if (hamming q node.item : ℤ) ≤ max_distance then
        results ++ [(hamming q node.item, node.item)] else results)
termination_by queue _ => (queue.map BKNode.size).sum
decreasing_by
  simp only [List.map_append, List.sum_append, List.map_cons, List.sum_cons]
  have h1 := sizeChildren_filter_le node.children (fun p =>
    decide ((hamming q node.item : ℤ) - max_distance ≤ (p.1 : ℤ) ∧
      (p.1 : ℤ) ≤ (hamming q node.item : ℤ) + max_distance))
  have h2 := BKNode.size_eq node
  omega

/-- `BKTree`: `root` is `None` until the first insertion. -/
structure BKTree where
  root : Option BKNode

/-- `BKTree.add` (lines 13–26). -/
def BKTree.add (t : BKTree) (item : FrameHash) : BKTree :=
  match t.root with
  | none => ⟨some (.mk item [])⟩
  | some r => ⟨some (r.add item)⟩

/-- `BKTree.query` (lines 28–46): empty tree → `[]`. -/
def BKTree.query (t : BKTree) (item : FrameHash) (max_distance : ℤ) :
    List (Nat × FrameHash) :=
  match t.root with
  | none => []
  | some r => queryLoop item max_distance [r] []

/-- The set of hashes stored in a tree. -/
def BKTree.elems (t : BKTree) : List FrameHash :=
  match t.root with
  | none => []
  | some r => r.elems

/-- The tree obtained by inserting every hash of `H` in order, as the
`for h in ...: bktree.add(h)` loops of `find_similar_groups` and
`identify_watched_videos` do. -/
def buildTree (H : List FrameHash) : BKTree :=
  H.foldl BKTree.add ⟨none⟩

/-- Well-formedness of a whole tree over bit-length `n`. -/
def BKTree.WFT (n : Nat) (t : BKTree) : Prop := ∀ r, t.root = some r → WF n r

theorem wft_add {n : Nat} (t : BKTree) (ht : BKTree.WFT n t) (x : FrameHash)
    (hx : x.length = n) : BKTree.WFT n (t.add x) := by
  intro r hr
  rw [BKTree.add] at hr
  cases hroot : t.root with
  | none =>
    rw [hroot] at hr
    simp only [Option.some.injEq] at hr
    subst hr
    exact WF.mk x [] hx List.nodup_nil (by simp) (by simp)
  | some r0 =>
    rw [hroot] at hr
    simp only [Option.some.injEq] at hr
    subst hr
    exact wf_add r0 (ht r0 hroot) x hx

theorem mem_elems_tree_add {n : Nat} (t : BKTree) (ht : BKTree.WFT n t)
    (x : FrameHash) (hx : x.length = n) (y : FrameHash) :
    y ∈ (t.add x).elems ↔ y ∈ t.elems ∨ y = x := by
  rw [BKTree.add]
  cases hroot : t.root with
  | none =>
    simp only [BKTree.elems, hroot]
    rw [BKNode.elems, elemsChildren]
    simp [eq_comm]
  | some r0 =>
    simp only [BKTree.elems, hroot]
    exact mem_elems_add r0 (ht r0 hroot) x hx y

theorem foldl_add_spec {n : Nat} (H : List FrameHash)
    (hH : ∀ h ∈ H, h.length = n) :
    ∀ (t0 : BKTree), BKTree.WFT n t0 →
    BKTree.WFT n (H.foldl BKTree.add t0) ∧
    ∀ y, (y ∈ (H.foldl BKTree.add t0).elems ↔ y ∈ t0.elems ∨ y ∈ H) := by
  induction H with
  | nil =>
    intro t0 hwf
    exact ⟨hwf, by simp⟩
  | cons a rest ih =>
    intro t0 hwf
    have ha : a.length = n := hH a (List.mem_cons_self _ _)
    have hrest : ∀ h ∈ rest, h.length = n :=
      fun h hh => hH h (List.mem_cons_of_mem _ hh)
    rw [List.foldl_cons]
    obtain ⟨w1, w2⟩ := (by exact ih hrest (t0.add a) (wft_add t0 hwf a ha) :
      BKTree.WFT n (rest.foldl BKTree.add (t0.add a)) ∧
      ∀ y, (y ∈ (rest.foldl BKTree.add (t0.add a)).elems ↔
        y ∈ (t0.add a).elems ∨ y ∈ rest))
    refine ⟨w1, ?_⟩
    intro y
    rw [w2 y, mem_elems_tree_add t0 hwf a ha y]
    simp only [List.mem_cons]
    tauto

theorem buildTree_spec {n : Nat} (H : List FrameHash)
    (hH : ∀ h ∈ H, h.length = n) :
    BKTree.WFT n (buildTree H) ∧
    ∀ y, (y ∈ (buildTree H).elems ↔ y ∈ H) := by
  obtain ⟨w1, w2⟩ := foldl_add_spec H hH ⟨none⟩ (by intro r hr; simp at hr)
  refine ⟨w1, fun y => ?_⟩
  rw [buildTree, w2 y]
  simp [BKTree.elems]

theorem queryLoop_mem {n : Nat} (qh : FrameHash) (r : ℤ) (hq : qh.length = n) :
    ∀ (queue : List BKNode), (∀ t ∈ queue, WF n t) →
    ∀ (acc : List (Nat × FrameHash)) (d : Nat) (h : FrameHash),
    ((d, h) ∈ queryLoop qh r queue acc ↔
      (d, h) ∈ acc ∨ ∃ t ∈ queue, h ∈ t.elems ∧ d = hamming qh h ∧ (d : ℤ) ≤ r)
  | [], hwf, acc, d, h => by
    rw [queryLoop]
    simp
  | .mk v cs :: rest, hwf, acc, d, h => by
    have hnodewf : WF n (.mk v cs) := hwf _ (List.mem_cons_self _ _)
    have hrestwf : ∀ t ∈ rest, WF n t := fun t ht => hwf t (List.mem_cons_of_mem _ ht)
    have hvlen : v.length = n := hnodewf.item_len
    rw [queryLoop]
    simp only [BKNode.item, BKNode.children]
    have hwf' : ∀ t ∈ rest ++ (cs.filter (fun p =>
        (hamming qh v : ℤ) - r ≤ (p.1 : ℤ) ∧
          (p.1 : ℤ) ≤ (hamming qh v : ℤ) + r)).map Prod.snd, WF n t := by
      intro t ht
      rcases List.mem_append.mp ht with ht' | ht'
      · exact hrestwf t ht'
      · obtain ⟨p, hp, rfl⟩ := List.mem_map.mp ht'
        exact hnodewf.child_wf p (List.mem_filter.mp hp).1
    rw [queryLoop_mem qh r hq _ hwf' _ d h]
    constructor
    · rintro (hacc | ⟨t, ht, he, hd, hdr⟩)
      · by_cases hrv : (hamming qh v : ℤ) ≤ r
        · rw [if_pos hrv] at hacc
          rcases List.mem_append.mp hacc with h' | h'
          · exact Or.inl h'
          · rw [List.mem_singleton, Prod.mk.injEq] at h'
            refine Or.inr ⟨.mk v cs, List.mem_cons_self _ _, ?_, ?_, ?_⟩
            · rw [h'.2, BKNode.elems]
              exact List.mem_cons_self _ _
            · rw [h'.2]
              exact h'.1
            · rw [h'.1]
              exact hrv
        · rw [if_neg hrv] at hacc
          exact Or.inl hacc
      · rcases List.mem_append.mp ht with ht' | ht'
        · exact Or.inr ⟨t, List.mem_cons_of_mem _ ht', he, hd, hdr⟩
        · obtain ⟨p, hp, rfl⟩ := List.mem_map.mp ht'
          refine Or.inr ⟨.mk v cs, List.mem_cons_self _ _, ?_, hd, hdr⟩
          rw [BKNode.elems, List.mem_cons]
          exact Or.inr ((mem_elemsChildren cs h).mpr
            ⟨p, (List.mem_filter.mp hp).1, he⟩)
    · rintro (hacc | ⟨t, ht, he, hd, hdr⟩)
      · refine Or.inl ?_
        split
        · exact List.mem_append_left _ hacc
        · exact hacc
      · rcases List.mem_cons.mp ht with rfl | ht'
        · rw [BKNode.elems, List.mem_cons] at he
          rcases he with rfl | he'
          · refine Or.inl ?_
            rw [hd, if_pos (hd ▸ hdr)]
            exact List.mem_append_right _ (List.mem_singleton_self _)
          · obtain ⟨p, hp, hep⟩ := (mem_elemsChildren cs h).mp he'
            have hhd : hamming h v = p.1 := hnodewf.child_dist p hp h hep
            have hhlen : h.length = n := by
              refine WF.elems_length _ hnodewf h ?_
              rw [BKNode.elems, List.mem_cons]
              exact Or.inr he'
            have htri := @hamming_reverse_triangle qh v h
              (by rw [hq, hvlen]) (by rw [hhlen, hvlen])
            rw [hhd] at htri
            rw [abs_le] at htri
            have hin : p ∈ cs.filter (fun p =>
                (hamming qh v : ℤ) - r ≤ (p.1 : ℤ) ∧
                  (p.1 : ℤ) ≤ (hamming qh v : ℤ) + r) := by
              rw [List.mem_filter]
              refine ⟨hp, ?_⟩
              have hdle : (hamming qh h : ℤ) ≤ r := hd ▸ hdr
              simp only [decide_eq_true_eq]
              omega
            exact Or.inr ⟨p.2, List.mem_append_right _
              (List.mem_map_of_mem Prod.snd hin), hep, hd, hdr⟩
        · exact Or.inr ⟨t, List.mem_append_left _ ht', he, hd, hdr⟩
termination_by queue => (queue.map BKNode.size).sum
decreasing_by
  simp only [List.map_append, List.sum_append, List.map_cons, List.sum_cons]
  have h1 := sizeChildren_filter_le cs (fun p =>
    decide ((hamming qh v : ℤ) - r ≤ (p.1 : ℤ) ∧
      (p.1 : ℤ) ≤ (hamming qh v : ℤ) + r))
  have h2 : (BKNode.mk v cs).size = 1 + sizeChildren cs := rfl
  omega

/-- C3: for every list of frame hashes `H` of uniform bit-length `n`
inserted into a fresh BK-tree, and every query hash of length `n` with
radius `r ≥ 0`, `query` reports exactly the stored hashes whose true
Hamming distance to the query is at most `r`, each with its exact
distance — no inserted hash within the radius is omitted and no hash
beyond it is reported. -/
theorem bktree_query_exact (H : List FrameHash) (qh : FrameHash) (r : ℤ)
    (n : Nat) (hH : ∀ h ∈ H, h.length = n) (hq : qh.length = n) (hr : 0 ≤ r)
    (d : Nat) (h : FrameHash) :
    ((d, h) ∈ (buildTree H).query qh r ↔
      h ∈ H ∧ d = hamming qh h ∧ (d : ℤ) ≤ r) := by
  obtain ⟨hwft, helems⟩ := buildTree_spec H hH
  cases hroot : (buildTree H).root with
  | none =>
    simp only [BKTree.query, hroot]
    constructor
    · intro hmem
      simp at hmem
    · rintro ⟨hmem, _, _⟩
      have hme := (helems h).mpr hmem
      rw [BKTree.elems, hroot] at hme
      simp at hme
  | some rt =>
    have hwf : WF n rt := hwft rt hroot
    simp only [BKTree.query, hroot]
    rw [queryLoop_mem qh r hq [rt] (by simpa using hwf) [] d h]
    constructor
    · rintro (hmem | ⟨t, ht, he, hd, hdr⟩)
      · simp at hmem
      · rw [List.mem_singleton] at ht
        subst ht
        have hme : h ∈ (buildTree H).elems := by
          rw [BKTree.elems, hroot]
          exact he
        exact ⟨(helems h).mp hme, hd, hdr⟩
    · rintro ⟨hmem, hd, hdr⟩
      refine Or.inr ⟨rt, List.mem_singleton_self _, ?_, hd, hdr⟩
      have hme := (helems h).mpr hmem
      rwa [BKTree.elems, hroot] at hme

/-- Witness for C3 at a concrete hash set, query and radius. -/
theorem bktree_query_exact_witness :
    ((1, [true, false]) ∈
        (buildTree [[true, false], [false, true]]).query [true, true] 1 ↔
      [true, false] ∈ [[true, false], [false, true]] ∧
        1 = hamming [true, true] [true, false] ∧ ((1 : Nat) : ℤ) ≤ 1) :=
  bktree_query_exact [[true, false], [false, true]] [true, true] 1 2
    (by decide) rfl (by decide) 1 [true, false]

/-!
### `core.find_similar_groups`: candidate generation and exact filtering

Video paths are kept generic in a linearly ordered type (for
`tuple(sorted(...))`).  Python's floats are rationals.  `int()` is
truncation toward zero.
-/

/-- Python `int(x)`: truncation toward zero. -/
def pyInt (x : ℚ) : ℤ := if 0 ≤ x then ⌊x⌋ else -⌊-x⌋

/-- `hash_to_video_map` (lines 44–47): bucket every hash value to the
videos whose signatures contain it, in insertion order. -/
def hashToVideoMap {α : Type} (video_hashes_map : List (α × List FrameHash)) :
    List (FrameHash × List α) :=
  video_hashes_map.foldl
    (fun acc e => e.2.foldl (fun acc2 h => adjAppend acc2 h e.1) acc) []

/-- The per-hash search radius of `find_similar_groups` (lines 56–58):
`total_bits = hash_size²`, `max_avg_distance = total_bits ×
(1 − threshold/100)`, `max_distance = int(max_avg_distance) + 1`. -/
def fsg_max_distance (hash_size : Nat) (similarity_threshold : ℚ) : ℤ :=
  pyInt (((hash_size * hash_size : Nat) : ℚ) * (1 - similarity_threshold / 100)) + 1

/-- Candidate-pair generation (lines 49–70): insert every distinct hash
into a BK-tree, query each bucket's hash with `fsg_max_distance`, and
collect all sorted cross-bucket pairs of distinct videos. -/
def fsg_candidate_pairs {α : Type} [LinearOrder α]
    (video_hashes_map : List (α × List FrameHash)) (hash_size : Nat)
    (similarity_threshold : ℚ) : List (α × α) :=
  let hmap := hashToVideoMap video_hashes_map
  let bktree := buildTree (hmap.map Prod.fst)
  let max_distance := fsg_max_distance hash_size similarity_threshold
  hmap.foldl (fun acc e =>
    (bktree.query e.1 max_distance).foldl (fun acc2 r =>
      let matched_videos := (alookup hmap r.2).getD []
      e.2.foldl (fun acc3 v1 =>
        matched_videos.foldl (fun acc4 v2 =>
          if v1 = v2 then acc4
          else setAdd acc4 (sortPair v1 v2)) acc3) acc2) acc) []

/-- Exact verification (lines 73–84): a candidate pair is kept iff its
exact `compare_hashes` similarity is `≥` the threshold. -/
def fsg_similar_pairs {α : Type} [LinearOrder α]
    (video_hashes_map : List (α × List FrameHash)) (hash_size : Nat)
    (similarity_threshold : ℚ) : List (α × α × ℚ) :=
  (fsg_candidate_pairs video_hashes_map hash_size similarity_threshold).foldl
    (fun acc pr =>
      if compare_hashes ((alookup video_hashes_map pr.1).getD [])
          ((alookup video_hashes_map pr.2).getD []) hash_size ≥
          similarity_threshold then
        acc ++ [(pr.1, pr.2,
          compare_hashes ((alookup video_hashes_map pr.1).getD [])
            ((alookup video_hashes_map pr.2).getD []) hash_size)]
      else acc) []

/-- `core.find_similar_groups`: fewer than two videos or no kept pair give
an empty result; otherwise the kept pairs are grouped into connected
components and the groups sorted by descending average similarity.  (For
`n ≥ 2` videos the `total_comparisons == 0` early return is unreachable.) -/
def find_similar_groups {α : Type} [LinearOrder α]
    (video_hashes_map : List (α × List FrameHash)) (hash_size : Nat)
    (similarity_threshold : ℚ) : List (List α × ℚ) :=
  if video_hashes_map.length < 2 then []
  else
    let pairs := fsg_similar_pairs video_hashes_map hash_size similarity_threshold
    if pairs = [] then []
    else (group_similar_items pairs).mergeSort (fun g1 g2 => g2.2 ≤ g1.2)

/-- C7: for every `hash_size > 1` and `threshold ∈ [0, 100]`, the search
radius `fsg_max_distance` used for every BK-tree query of
`find_similar_groups` equals `⌊bits × (1 − threshold/100)⌋ + 1` with
`bits = hash_size²` (on a nonnegative operand Python's `int()` truncation
is `floor`). -/
theorem fsg_max_distance_eq (hash_size : Nat) (threshold : ℚ)
    (hhs : 1 < hash_size) (h0 : 0 ≤ threshold) (h100 : threshold ≤ 100) :
    fsg_max_distance hash_size threshold =
      ⌊((hash_size * hash_size : Nat) : ℚ) * (1 - threshold / 100)⌋ + 1 := by
  rw [fsg_max_distance, pyInt, if_pos]
  have hb : (0 : ℚ) ≤ ((hash_size * hash_size : Nat) : ℚ) := by positivity
  have ht : (0 : ℚ) ≤ 1 - threshold / 100 := by linarith
  positivity

/-- Witness for C7 at `hash_size = 8`, `threshold = 90`. -/
theorem fsg_max_distance_eq_witness :
    fsg_max_distance 8 90 = ⌊((8 * 8 : Nat) : ℚ) * (1 - 90 / 100)⌋ + 1 :=
  fsg_max_distance_eq 8 90 (by decide) (by norm_num) (by norm_num)

theorem mem_foldl_append_if {β γ : Type} (P : β → Prop) [DecidablePred P]
    (g : β → γ) :
    ∀ (l : List β) (acc : List γ) (y : γ),
    (y ∈ l.foldl (fun a x => if P x then a ++ [g x] else a) acc ↔
      y ∈ acc ∨ ∃ x ∈ l, P x ∧ y = g x) := by
  intro l
  induction l with
  | nil => intro acc y; simp
  | cons x rest ih =>
    intro acc y
    rw [List.foldl_cons]
    by_cases hp : P x
    · rw [if_pos hp, ih]
      simp only [List.mem_append, List.mem_cons, List.not_mem_nil, or_false,
        List.mem_singleton]
      constructor
      · rintro ((h | h) | ⟨x', hx', hpx', rfl⟩)
        · exact Or.inl h
        · exact Or.inr ⟨x, Or.inl rfl, hp, h⟩
        · exact Or.inr ⟨x', Or.inr hx', hpx', rfl⟩
      · rintro (h | ⟨x', hx', hpx', rfl⟩)
        · exact Or.inl (Or.inl h)
        · rcases hx' with rfl | hx''
          · exact Or.inl (Or.inr rfl)
          · exact Or.inr ⟨x', hx'', hpx', rfl⟩
    · rw [if_neg hp, ih]
      constructor
      · rintro (h | ⟨x', hx', hpx', rfl⟩)
        · exact Or.inl h
        · exact Or.inr ⟨x', List.mem_cons_of_mem _ hx', hpx', rfl⟩
      · rintro (h | ⟨x', hx', hpx', rfl⟩)
        · exact Or.inl h
        · rcases List.mem_cons.mp hx' with rfl | hx''
          · exact absurd hpx' hp
          · exact Or.inr ⟨x', hx'', hpx', rfl⟩

/-- C8: a candidate pair whose exact similarity is exactly the threshold is
kept by `find_similar_groups` (the comparison is `≥`, not `>`), and kept
pairs compose transitively: an input list of kept pairs containing `(a,b)`
and `(b,c)` puts `a`, `b`, `c` into one `group_similar_items` output group
even though `(a,c)` may never have been evaluated. -/
theorem threshold_boundary_and_transitivity {α : Type} [LinearOrder α]
    (video_hashes_map : List (α × List FrameHash)) (hash_size : Nat)
    (threshold : ℚ) (v1 v2 : α)
    (pairs : List (α × α × ℚ)) (a b c : α) (s1 s2 : ℚ)
    (hpair : (v1, v2) ∈ fsg_candidate_pairs video_hashes_map hash_size threshold)
    (heq : compare_hashes ((alookup video_hashes_map v1).getD [])
      ((alookup video_hashes_map v2).getD []) hash_size = threshold)
    (hab : (a, b, s1) ∈ pairs) (hbc : (b, c, s2) ∈ pairs)
    (hne1 : a ≠ b) (hne2 : b ≠ c) :
    (v1, v2, threshold) ∈
      fsg_similar_pairs video_hashes_map hash_size threshold ∧
    ∃ g ∈ group_similar_items pairs, a ∈ g.1 ∧ b ∈ g.1 ∧ c ∈ g.1 := by
  constructor
  · rw [fsg_similar_pairs]
    refine (mem_foldl_append_if
      (fun pr : α × α => compare_hashes ((alookup video_hashes_map pr.1).getD [])
        ((alookup video_hashes_map pr.2).getD []) hash_size ≥ threshold)
      (fun pr => (pr.1, pr.2,
        compare_hashes ((alookup video_hashes_map pr.1).getD [])
          ((alookup video_hashes_map pr.2).getD []) hash_size))
      (fsg_candidate_pairs video_hashes_map hash_size threshold) []
      (v1, v2, threshold)).mpr ?_
    refine Or.inr ⟨(v1, v2), hpair, le_of_eq heq.symm, ?_⟩
    rw [heq]
  · exact grouping_transitive pairs a b c s1 s2 hab hbc hne1 hne2

/-- Witness for C8: two identical one-frame videos at a threshold of
exactly 100, and a concrete transitive chain of kept pairs. -/
theorem threshold_boundary_and_transitivity_witness :
    ((0 : Nat), 1, (100 : ℚ)) ∈
      fsg_similar_pairs [(0, [[true]]), (1, [[true]])] 1 100 ∧
    ∃ g ∈ group_similar_items [((10 : Nat), 11, (95 : ℚ)), (11, 12, 96)],
      10 ∈ g.1 ∧ 11 ∈ g.1 ∧ 12 ∈ g.1 :=
  threshold_boundary_and_transitivity [(0, [[true]]), (1, [[true]])] 1 100 0 1
    [(10, 11, 95), (11, 12, 96)] 10 11 12 95 96
    (by
      simp [fsg_candidate_pairs, hashToVideoMap, adjAppend, alookup, upsert,
        buildTree, BKTree.add, BKNode.add, addChild, BKTree.query, queryLoop,
        fsg_max_distance, pyInt, setAdd, sortPair, hamming, BKNode.item,
        BKNode.children]
      decide)
    (by norm_num [compare_hashes, alookup, hamming])
    (by decide) (by decide) (by decide) (by decide)

/-!
### `core.identify_watched_videos`: the watched matcher

Watched hashes are modelled as already-decoded `FrameHash` values
(`imagehash.hex_to_hash` is a bijection between stored hex strings and
hash objects), so the conversion `try/except` cannot fail and the
`isinstance` guard never skips a frame hash.  The Python-set union of all
watched hashes is modelled in first-occurrence order with duplicates
removed; no proved fact depends on that order.
-/

/-- The `if current_dist < min_dist: min_dist = current_dist` update of the
nearest-neighbour search. -/
def nnUpdate (current_dist min_dist : Nat) : Nat :=
  if current_dist < min_dist then current_dist else min_dist

/-- The nearest-neighbour BK-tree search of `identify_watched_videos`
(lines 90–102): BFS, shrinking `min_dist` at each visited node and
exploring only children whose bucket key lies within
`current_dist ± min_dist`, with the just-updated minimum. -/
def nnLoop (video_hash : FrameHash) : List BKNode → Nat → Nat
  | [], min_dist => min_dist
  | node :: rest, min_dist =>
    nnLoop video_hash
      (rest ++ (node.children.filter (fun p =>
        (hamming video_hash node.item : ℤ) -
            (nnUpdate (hamming video_hash node.item) min_dist : Nat) ≤ (p.1 : ℤ) ∧
          (p.1 : ℤ) ≤ (hamming video_hash node.item : ℤ) +
            (nnUpdate (hamming video_hash node.item) min_dist : Nat))).map Prod.snd)
      (nnUpdate (hamming video_hash node.item) min_dist)
termination_by queue _ => (queue.map BKNode.size).sum
decreasing_by
  simp only [List.map_append, List.sum_append, List.map_cons, List.sum_cons]
  have h1 := sizeChildren_filter_le node.children (fun p =>
    decide ((hamming video_hash node.item : ℤ) -
        (nnUpdate (hamming video_hash node.item) min_dist : Nat) ≤ (p.1 : ℤ) ∧
      (p.1 : ℤ) ≤ (hamming video_hash node.item : ℤ) +
        (nnUpdate (hamming video_hash node.item) min_dist : Nat)))
  have h2 := BKNode.size_eq node
  omega

/-- The `min_dist` computed for one frame hash (lines 88–102), including
the `hash_len_bits` initialisation and the `root is None` guard. -/
def bkMinDist (tree : BKTree) (video_hash : FrameHash) (hash_len_bits : Nat) :
    Nat :=
  match tree.root with
  | none => hash_len_bits
  | some rt => nnLoop video_hash [rt] hash_len_bits

/-- One iteration of the per-video loop of `identify_watched_videos`
(lines 72–119): an empty signature is passed over (`continue`); otherwise
the average of the per-frame minimum distances is converted to a
percentage and compared with the threshold. -/
def iwvStep {α : Type} (watched_bktree : BKTree) (hash_size : Nat)
    (similarity_threshold : ℚ) (acc : List α × List (α × List FrameHash))
    (e : α × List FrameHash) : List α × List (α × List FrameHash) :=
  if e.2 = [] then acc
  else
    let hash_len_bits := hash_size * hash_size
    let best_match_distances :=
      e.2.map (fun h => bkMinDist watched_bktree h hash_len_bits)
    let avg_distance : ℚ := ((best_match_distances.map (fun (d : Nat) => (d : ℚ))).sum) /
      (best_match_distances.length : ℚ)
    let similarity :=
      max 0 (((hash_len_bits : ℚ) - avg_distance) / (hash_len_bits : ℚ)) * 100
    if similarity ≥ similarity_threshold then (acc.1 ++ [e.1], acc.2)
    else (acc.1, acc.2 ++ [e])

/-- `core.identify_watched_videos(video_hashes_map, watched_videos_data,
hash_size, similarity_threshold)`. -/
def identify_watched_videos {α : Type} [DecidableEq α]
    (video_hashes_map : List (α × List FrameHash))
    (watched_videos_data : List (α × List FrameHash))
    (hash_size : Nat) (similarity_threshold : ℚ) :
    List α × List (α × List FrameHash) :=
  if watched_videos_data = [] then ([], video_hashes_map)
  else
    let all_watched_hashes := ((watched_videos_data.map Prod.snd).flatten).dedup
    if all_watched_hashes = [] then ([], video_hashes_map)
    else
      video_hashes_map.foldl
        (iwvStep (buildTree all_watched_hashes) hash_size similarity_threshold)
        ([], [])

theorem nnLoop_le {n : Nat} (qh : FrameHash) (hq : qh.length = n) :
    ∀ (queue : List BKNode), (∀ t ∈ queue, WF n t) → ∀ (m : Nat),
    nnLoop qh queue m ≤ m ∧
    (∀ t ∈ queue, ∀ x ∈ t.elems, nnLoop qh queue m ≤ hamming qh x)
  | [], hwf, m => by
    rw [nnLoop]
    exact ⟨le_refl m, by simp⟩
  | .mk v cs :: rest, hwf, m => by
    have hnodewf : WF n (.mk v cs) := hwf _ (List.mem_cons_self _ _)
    have hrestwf : ∀ t ∈ rest, WF n t :=
      fun t ht => hwf t (List.mem_cons_of_mem _ ht)
    have hvlen : v.length = n := hnodewf.item_len
    have hwf' : ∀ t ∈ rest ++ (cs.filter (fun p =>
        (hamming qh v : ℤ) - (nnUpdate (hamming qh v) m : Nat) ≤ (p.1 : ℤ) ∧
          (p.1 : ℤ) ≤ (hamming qh v : ℤ) + (nnUpdate (hamming qh v) m : Nat))).map
        Prod.snd, WF n t := by
      intro t ht
      rcases List.mem_append.mp ht with ht' | ht'
      · exact hrestwf t ht'
      · obtain ⟨p, hp, rfl⟩ := List.mem_map.mp ht'
        exact hnodewf.child_wf p (List.mem_filter.mp hp).1
    obtain ⟨ih1, ih2⟩ := nnLoop_le qh hq
      (rest ++ (cs.filter (fun p =>
        (hamming qh v : ℤ) - (nnUpdate (hamming qh v) m : Nat) ≤ (p.1 : ℤ) ∧
          (p.1 : ℤ) ≤ (hamming qh v : ℤ) + (nnUpdate (hamming qh v) m : Nat))).map
        Prod.snd) hwf' (nnUpdate (hamming qh v) m)
    have hstep : nnLoop qh (BKNode.mk v cs :: rest) m =
        nnLoop qh (rest ++ (cs.filter (fun p =>
          (hamming qh v : ℤ) - (nnUpdate (hamming qh v) m : Nat) ≤ (p.1 : ℤ) ∧
            (p.1 : ℤ) ≤ (hamming qh v : ℤ) + (nnUpdate (hamming qh v) m : Nat))).map
          Prod.snd) (nnUpdate (hamming qh v) m) := by
      rw [nnLoop]
      simp only [BKNode.item, BKNode.children]
    rw [hstep]
    have hupm : nnUpdate (hamming qh v) m ≤ m := by
      rw [nnUpdate]; split <;> omega
    have hupd : nnUpdate (hamming qh v) m ≤ hamming qh v := by
      rw [nnUpdate]; split <;> omega
    refine ⟨ih1.trans hupm, ?_⟩
    intro t ht x hx
    rcases List.mem_cons.mp ht with rfl | ht'
    · rw [BKNode.elems, List.mem_cons] at hx
      rcases hx with rfl | hx'
      · exact ih1.trans hupd
      · obtain ⟨p, hp, hep⟩ := (mem_elemsChildren cs x).mp hx'
        by_cases hkept : (hamming qh v : ℤ) -
            (nnUpdate (hamming qh v) m : Nat) ≤ (p.1 : ℤ) ∧
            (p.1 : ℤ) ≤ (hamming qh v : ℤ) + (nnUpdate (hamming qh v) m : Nat)
        · refine ih2 p.2 (List.mem_append_right _
            (List.mem_map_of_mem Prod.snd ?_)) x hep
          rw [List.mem_filter]
          exact ⟨hp, by simpa using hkept⟩
        · have hxd : hamming x v = p.1 := hnodewf.child_dist p hp x hep
          have hxlen : x.length = n := by
            refine WF.elems_length _ hnodewf x ?_
            rw [BKNode.elems, List.mem_cons]
            exact Or.inr hx'
          have htri := @hamming_reverse_triangle qh v x
            (by rw [hq, hvlen]) (by rw [hxlen, hvlen])
          rw [hxd] at htri
          rw [abs_le] at htri
          have : (nnUpdate (hamming qh v) m : ℤ) < (hamming qh x : ℤ) := by omega
          have hle := ih1
          omega
    · exact ih2 t (List.mem_append_left _ ht') x hx
termination_by queue => (queue.map BKNode.size).sum
decreasing_by
  simp only [List.map_append, List.sum_append, List.map_cons, List.sum_cons]
  have h1 := sizeChildren_filter_le cs (fun p =>
    decide ((hamming qh v : ℤ) - (nnUpdate (hamming qh v) m : Nat) ≤ (p.1 : ℤ) ∧
      (p.1 : ℤ) ≤ (hamming qh v : ℤ) + (nnUpdate (hamming qh v) m : Nat)))
  have h2 : (BKNode.mk v cs).size = 1 + sizeChildren cs := rfl
  omega

theorem nnLoop_attained (qh : FrameHash) :
    ∀ (queue : List BKNode) (m : Nat),
    nnLoop qh queue m = m ∨
      ∃ t ∈ queue, ∃ x ∈ t.elems, nnLoop qh queue m = hamming qh x
  | [], m => by
    rw [nnLoop]
    exact Or.inl rfl
  | .mk v cs :: rest, m => by
    have hstep : nnLoop qh (BKNode.mk v cs :: rest) m =
        nnLoop qh (rest ++ (cs.filter (fun p =>
          (hamming qh v : ℤ) - (nnUpdate (hamming qh v) m : Nat) ≤ (p.1 : ℤ) ∧
            (p.1 : ℤ) ≤ (hamming qh v : ℤ) + (nnUpdate (hamming qh v) m : Nat))).map
          Prod.snd) (nnUpdate (hamming qh v) m) := by
      rw [nnLoop]
      simp only [BKNode.item, BKNode.children]
    rw [hstep]
    rcases nnLoop_attained qh
      (rest ++ (cs.filter (fun p =>
        (hamming qh v : ℤ) - (nnUpdate (hamming qh v) m : Nat) ≤ (p.1 : ℤ) ∧
          (p.1 : ℤ) ≤ (hamming qh v : ℤ) + (nnUpdate (hamming qh v) m : Nat))).map
        Prod.snd) (nnUpdate (hamming qh v) m) with h | ⟨t, ht, x, hx, h⟩
    · by_cases hd : hamming qh v < m
      · have hval : nnUpdate (hamming qh v) m = hamming qh v := by
          rw [nnUpdate, if_pos hd]
        refine Or.inr ⟨.mk v cs, List.mem_cons_self _ _, v, ?_, h.trans hval⟩
        rw [BKNode.elems]
        exact List.mem_cons_self _ _
      · have hval : nnUpdate (hamming qh v) m = m := by
          rw [nnUpdate, if_neg hd]
        exact Or.inl (h.trans hval)
    · rcases List.mem_append.mp ht with ht' | ht'
      · exact Or.inr ⟨t, List.mem_cons_of_mem _ ht', x, hx, h⟩
      · obtain ⟨p, hp, rfl⟩ := List.mem_map.mp ht'
        refine Or.inr ⟨.mk v cs, List.mem_cons_self _ _, x, ?_, h⟩
        rw [BKNode.elems, List.mem_cons]
        exact Or.inr ((mem_elemsChildren cs x).mpr
          ⟨p, (List.mem_filter.mp hp).1, hx⟩)
termination_by queue => (queue.map BKNode.size).sum
decreasing_by
  simp only [List.map_append, List.sum_append, List.map_cons, List.sum_cons]
  have h1 := sizeChildren_filter_le cs (fun p =>
    decide ((hamming qh v : ℤ) - (nnUpdate (hamming qh v) m : Nat) ≤ (p.1 : ℤ) ∧
      (p.1 : ℤ) ≤ (hamming qh v : ℤ) + (nnUpdate (hamming qh v) m : Nat)))
  have h2 : (BKNode.mk v cs).size = 1 + sizeChildren cs := rfl
  omega

/-- The linear-scan minimum Hamming distance from `qh` to the hashes of
`ws`, clamped at `b` — the claim's reference formulation of the per-frame
minimum. -/
def linearMinDist (qh : FrameHash) (ws : List FrameHash) (b : Nat) : Nat :=
  (ws.map (fun w => hamming qh w)).foldr min b

theorem linearMinDist_le (qh : FrameHash) (ws : List FrameHash) (b : Nat) :
    linearMinDist qh ws b ≤ b ∧
    ∀ w ∈ ws, linearMinDist qh ws b ≤ hamming qh w := by
  induction ws with
  | nil => exact ⟨le_refl b, by simp⟩
  | cons w rest ih =>
    rw [linearMinDist] at ih ⊢
    rw [List.map_cons, List.foldr_cons]
    refine ⟨le_trans (min_le_right _ _) ih.1, ?_⟩
    intro w' hw'
    rcases List.mem_cons.mp hw' with rfl | hw''
    · exact min_le_left _ _
    · exact le_trans (min_le_right _ _) (ih.2 w' hw'')

theorem linearMinDist_attained (qh : FrameHash) (ws : List FrameHash) (b : Nat) :
    linearMinDist qh ws b = b ∨
      ∃ w ∈ ws, linearMinDist qh ws b = hamming qh w := by
  induction ws with
  | nil => exact Or.inl rfl
  | cons w rest ih =>
    rw [linearMinDist] at ih ⊢
    rw [List.map_cons, List.foldr_cons]
    rcases le_total (hamming qh w) ((rest.map (fun w => hamming qh w)).foldr min b) with h | h
    · rw [min_eq_left h]
      exact Or.inr ⟨w, List.mem_cons_self _ _, rfl⟩
    · rw [min_eq_right h]
      rcases ih with h' | ⟨w', hw', h'⟩
      · exact Or.inl h'
      · exact Or.inr ⟨w', List.mem_cons_of_mem _ hw', h'⟩

/-- Two hash lists with the same members have the same clamped minimum. -/
theorem linearMinDist_congr (qh : FrameHash) (ws1 ws2 : List FrameHash)
    (b : Nat) (h : ∀ w, w ∈ ws1 ↔ w ∈ ws2) :
    linearMinDist qh ws1 b = linearMinDist qh ws2 b := by
  obtain ⟨l1, l2⟩ := linearMinDist_le qh ws1 b
  obtain ⟨r1, r2⟩ := linearMinDist_le qh ws2 b
  apply le_antisymm
  · rcases linearMinDist_attained qh ws2 b with h' | ⟨w, hw, h'⟩
    · rw [h']; exact l1
    · rw [h']; exact l2 w ((h w).mpr hw)
  · rcases linearMinDist_attained qh ws1 b with h' | ⟨w, hw, h'⟩
    · rw [h']; exact r1
    · rw [h']; exact r2 w ((h w).mp hw)

/-- The BK-tree nearest-neighbour search of `identify_watched_videos`
computes exactly the linear-scan minimum. -/
theorem bkMinDist_eq_linear {n : Nat} (ws : List FrameHash)
    (hws : ∀ w ∈ ws, w.length = n) (qh : FrameHash) (hq : qh.length = n)
    (b : Nat) :
    bkMinDist (buildTree ws) qh b = linearMinDist qh ws b := by
  obtain ⟨hwft, helems⟩ := buildTree_spec ws hws
  cases hroot : (buildTree ws).root with
  | none =>
    have hred : bkMinDist (buildTree ws) qh b = b := by rw [bkMinDist, hroot]
    have hws0 : ws = [] := by
      cases hws1 : ws with
      | nil => rfl
      | cons w rest =>
        exfalso
        have hmem := (helems w).mpr (by rw [hws1]; exact List.mem_cons_self _ _)
        rw [BKTree.elems, hroot] at hmem
        simp at hmem
    rw [hred, hws0]
    rfl
  | some rt =>
    have hred : bkMinDist (buildTree ws) qh b = nnLoop qh [rt] b := by
      rw [bkMinDist, hroot]
    rw [hred]
    have hwf := hwft rt hroot
    obtain ⟨l1, l2⟩ := linearMinDist_le qh ws b
    obtain ⟨n1, n2⟩ := nnLoop_le qh hq [rt] (by simpa using hwf) b
    apply le_antisymm
    · rcases linearMinDist_attained qh ws b with h' | ⟨w, hw, h'⟩
      · rw [h']; exact n1
      · rw [h']
        refine n2 rt (List.mem_singleton_self _) w ?_
        have hmem := (helems w).mpr hw
        rwa [BKTree.elems, hroot] at hmem
    · rcases nnLoop_attained qh [rt] b with h' | ⟨t, ht, x, hx, h'⟩
      · rw [h']; exact l1
      · rw [h']
        rw [List.mem_singleton] at ht
        subst ht
        refine l2 x ?_
        have hmem : x ∈ (buildTree ws).elems := by
          rw [BKTree.elems, hroot]
          exact hx
        exact (helems x).mp hmem

theorem iwvStep_mem {α : Type} [DecidableEq α] (tree : BKTree) (hs : Nat)
    (th : ℚ) (acc : List α × List (α × List FrameHash))
    (e : α × List FrameHash) (p : α) (hne : e.1 ≠ p) :
    (p ∈ (iwvStep tree hs th acc e).1 ↔ p ∈ acc.1) ∧
    (∀ hl, ((p, hl) ∈ (iwvStep tree hs th acc e).2 ↔ (p, hl) ∈ acc.2)) ∧
    (p ∈ (iwvStep tree hs th acc e).2.map Prod.fst ↔
      p ∈ acc.2.map Prod.fst) := by
  simp only [iwvStep]
  by_cases h2 : e.2 = []
  · rw [if_pos h2]
    exact ⟨Iff.rfl, fun _ => Iff.rfl, Iff.rfl⟩
  · rw [if_neg h2]
    split
    · refine ⟨?_, fun _ => Iff.rfl, Iff.rfl⟩
      rw [List.mem_append, List.mem_singleton]
      constructor
      · rintro (h | rfl)
        · exact h
        · exact absurd rfl hne
      · exact Or.inl
    · refine ⟨Iff.rfl, fun hl => ?_, ?_⟩
      · rw [List.mem_append, List.mem_singleton]
        constructor
        · rintro (h | h)
          · exact h
          · exact absurd (congrArg Prod.fst h).symm hne
        · exact Or.inl
      · rw [List.map_append, List.mem_append, List.map_cons, List.map_nil,
          List.mem_singleton]
        constructor
        · rintro (h | rfl)
          · exact h
          · exact absurd rfl hne
        · exact Or.inl

theorem iwv_fold_preserves {α : Type} [DecidableEq α] (tree : BKTree)
    (hs : Nat) (th : ℚ) (p : α) :
    ∀ (l : List (α × List FrameHash))
      (acc : List α × List (α × List FrameHash)),
    (∀ e ∈ l, e.1 ≠ p) →
    ((p ∈ (l.foldl (iwvStep tree hs th) acc).1 ↔ p ∈ acc.1) ∧
     (∀ hl, ((p, hl) ∈ (l.foldl (iwvStep tree hs th) acc).2 ↔
       (p, hl) ∈ acc.2)) ∧
     (p ∈ ((l.foldl (iwvStep tree hs th) acc).2.map Prod.fst) ↔
       p ∈ acc.2.map Prod.fst)) := by
  intro l
  induction l with
  | nil => intro acc _; exact ⟨Iff.rfl, fun _ => Iff.rfl, Iff.rfl⟩
  | cons e rest ih =>
    intro acc hne
    have he : e.1 ≠ p := hne e (List.mem_cons_self _ _)
    have hrest : ∀ e' ∈ rest, e'.1 ≠ p :=
      fun e' h' => hne e' (List.mem_cons_of_mem _ h')
    rw [List.foldl_cons]
    obtain ⟨i1, i2, i3⟩ := ih (iwvStep tree hs th acc e) hrest
    obtain ⟨s1, s2, s3⟩ := iwvStep_mem tree hs th acc e p he
    exact ⟨i1.trans s1, fun hl => (i2 hl).trans (s2 hl), i3.trans s3⟩

theorem iwvStep_self {α : Type} [DecidableEq α] (tree : BKTree) (hs : Nat)
    (th : ℚ) (acc : List α × List (α × List FrameHash)) (p : α)
    (hl : List FrameHash) (hne : hl ≠ []) :
    iwvStep tree hs th acc (p, hl) =
      if max 0 ((((hs * hs : Nat) : ℚ) -
          ((hl.map (fun h => bkMinDist tree h (hs * hs))).map
            (fun (d : Nat) => (d : ℚ))).sum /
            ((hl.map (fun h => bkMinDist tree h (hs * hs))).length : ℚ)) /
          ((hs * hs : Nat) : ℚ)) * 100 ≥ th
      then (acc.1 ++ [p], acc.2) else (acc.1, acc.2 ++ [(p, hl)]) := by
  simp only [iwvStep]
  rw [if_neg hne]

/-- The classification of one video inside the main fold of
`identify_watched_videos`: exact membership behaviour at the video's own
key, derived from the list split at that key. -/
theorem iwv_classification {α : Type} [DecidableEq α]
    (video_hashes_map watched : List (α × List FrameHash))
    (hash_size : Nat) (threshold : ℚ) (p : α) (hl : List FrameHash)
    (hkeys : (video_hashes_map.map Prod.fst).Nodup)
    (hmem : (p, hl) ∈ video_hashes_map) (hne : hl ≠ [])
    (hw1 : watched ≠ [])
    (hw2 : ((watched.map Prod.snd).flatten).dedup ≠ []) :
    ((p ∈ (identify_watched_videos video_hashes_map watched hash_size
        threshold).1 ↔
      max 0 ((((hash_size * hash_size : Nat) : ℚ) -
          ((hl.map (fun h => bkMinDist
            (buildTree ((watched.map Prod.snd).flatten).dedup) h
            (hash_size * hash_size))).map (fun (d : Nat) => (d : ℚ))).sum /
            ((hl.map (fun h => bkMinDist
              (buildTree ((watched.map Prod.snd).flatten).dedup) h
              (hash_size * hash_size))).length : ℚ)) /
          ((hash_size * hash_size : Nat) : ℚ)) * 100 ≥ threshold) ∧
     (¬ (max 0 ((((hash_size * hash_size : Nat) : ℚ) -
          ((hl.map (fun h => bkMinDist
            (buildTree ((watched.map Prod.snd).flatten).dedup) h
            (hash_size * hash_size))).map (fun (d : Nat) => (d : ℚ))).sum /
            ((hl.map (fun h => bkMinDist
              (buildTree ((watched.map Prod.snd).flatten).dedup) h
              (hash_size * hash_size))).length : ℚ)) /
          ((hash_size * hash_size : Nat) : ℚ)) * 100 ≥ threshold) →
       ((p, hl) ∈ (identify_watched_videos video_hashes_map watched hash_size
         threshold).2)) ∧
     (p ∈ (identify_watched_videos video_hashes_map watched hash_size
        threshold).2.map Prod.fst ↔
      ¬ (max 0 ((((hash_size * hash_size : Nat) : ℚ) -
          ((hl.map (fun h => bkMinDist
            (buildTree ((watched.map Prod.snd).flatten).dedup) h
            (hash_size * hash_size))).map (fun (d : Nat) => (d : ℚ))).sum /
            ((hl.map (fun h => bkMinDist
              (buildTree ((watched.map Prod.snd).flatten).dedup) h
              (hash_size * hash_size))).length : ℚ)) /
          ((hash_size * hash_size : Nat) : ℚ)) * 100 ≥ threshold))) := by
  have hout : identify_watched_videos video_hashes_map watched hash_size
      threshold = video_hashes_map.foldl
        (iwvStep (buildTree ((watched.map Prod.snd).flatten).dedup) hash_size
          threshold) ([], []) := by
    rw [identify_watched_videos, if_neg hw1]
    simp only
    rw [if_neg hw2]
  rw [hout]
  obtain ⟨s, t, hsplit⟩ := List.append_of_mem hmem
  subst hsplit
  have hmap : ((s ++ (p, hl) :: t).map Prod.fst) =
      s.map Prod.fst ++ p :: t.map Prod.fst := by simp
  rw [hmap] at hkeys
  rw [List.nodup_append] at hkeys
  have hps : ∀ e ∈ s, e.1 ≠ p := by
    intro e he hep
    exact hkeys.2.2 (hep ▸ List.mem_map_of_mem Prod.fst he)
      (List.mem_cons_self _ _)
  have hpt : ∀ e ∈ t, e.1 ≠ p := by
    intro e he hep
    have hnd := hkeys.2.1
    rw [List.nodup_cons] at hnd
    exact hnd.1 (hep ▸ List.mem_map_of_mem Prod.fst he)
  rw [List.foldl_append, List.foldl_cons]
  obtain ⟨m1, m2, m3⟩ := iwv_fold_preserves
    (buildTree ((watched.map Prod.snd).flatten).dedup) hash_size threshold p
    s ([], []) hps
  obtain ⟨f1, f2, f3⟩ := iwv_fold_preserves
    (buildTree ((watched.map Prod.snd).flatten).dedup) hash_size threshold p
    t (iwvStep (buildTree ((watched.map Prod.snd).flatten).dedup) hash_size
        threshold
      (s.foldl (iwvStep (buildTree ((watched.map Prod.snd).flatten).dedup)
        hash_size threshold) ([], [])) (p, hl)) hpt
  rw [iwvStep_self (buildTree ((watched.map Prod.snd).flatten).dedup)
    hash_size threshold _ p hl hne] at f1 f2 f3 ⊢
  by_cases hsim : max 0 ((((hash_size * hash_size : Nat) : ℚ) -
      ((hl.map (fun h => bkMinDist
        (buildTree ((watched.map Prod.snd).flatten).dedup) h
        (hash_size * hash_size))).map (fun (d : Nat) => (d : ℚ))).sum /
        ((hl.map (fun h => bkMinDist
          (buildTree ((watched.map Prod.snd).flatten).dedup) h
          (hash_size * hash_size))).length : ℚ)) /
      ((hash_size * hash_size : Nat) : ℚ)) * 100 ≥ threshold
  · rw [if_pos hsim] at f1 f2 f3 ⊢
    refine ⟨?_, fun hc => absurd hsim hc, ?_⟩
    · rw [f1]
      simp only [List.mem_append, List.mem_singleton]
      exact ⟨fun _ => hsim, fun _ => Or.inr (by trivial)⟩
    · rw [f3]
      constructor
      · intro hc
        exact absurd (m3.mp hc) (by simp)
      · intro hc
        exact absurd hsim hc
  · rw [if_neg hsim] at f1 f2 f3 ⊢
    refine ⟨?_, fun _ => ?_, ?_⟩
    · rw [f1]
      constructor
      · intro hc
        exact absurd (m1.mp hc) (by simp)
      · intro hc
        exact absurd hc hsim
    · rw [f2 hl]
      exact List.mem_append_right _ (List.mem_singleton_self _)
    · rw [f3]
      simp only [List.map_append, List.mem_append]
      refine ⟨fun _ => hsim, fun _ => Or.inr ?_⟩
      simp

/-- C2 counterexample: one input video with an empty signature and a
non-empty watched reference set.  The video is silently dropped
(`continue` at line 74-75): it is in neither the watched-paths list nor
the remaining signature map, so the partition is not exhaustive. -/
theorem watched_partition_counterexample :
    (identify_watched_videos [("a", ([] : List FrameHash))] [("w", [[true]])]
      1 50).1 = [] ∧
    (identify_watched_videos [("a", ([] : List FrameHash))] [("w", [[true]])]
      1 50).2 = [] ∧
    "a" ∉ (identify_watched_videos [("a", ([] : List FrameHash))]
      [("w", [[true]])] 1 50).1 ∧
    "a" ∉ (identify_watched_videos [("a", ([] : List FrameHash))]
      [("w", [[true]])] 1 50).2.map Prod.fst := by
  refine ⟨?_, ?_, ?_, ?_⟩ <;> simp [identify_watched_videos, iwvStep]

/-- C2 (amended): for every input signature map with distinct keys and
every watched reference set, each video whose signature is non-empty
appears in exactly one of the two outputs — either in the watched-paths
list or, with its hashes, in the remaining signature map; a video with an
empty signature appears in neither (see the counterexample), so the
claimed partition holds exactly for the videos with non-empty
signatures. -/
theorem watched_partition {α : Type} [DecidableEq α]
    (video_hashes_map watched : List (α × List FrameHash))
    (hash_size : Nat) (threshold : ℚ) (p : α) (hl : List FrameHash)
    (hkeys : (video_hashes_map.map Prod.fst).Nodup)
    (hmem : (p, hl) ∈ video_hashes_map) (hne : hl ≠ []) :
    ((p ∈ (identify_watched_videos video_hashes_map watched hash_size
        threshold).1 ↔
      p ∉ (identify_watched_videos video_hashes_map watched hash_size
        threshold).2.map Prod.fst) ∧
     (p ∉ (identify_watched_videos video_hashes_map watched hash_size
        threshold).1 →
      (p, hl) ∈ (identify_watched_videos video_hashes_map watched hash_size
        threshold).2)) := by
  by_cases hw1 : watched = []
  · rw [identify_watched_videos, if_pos hw1]
    refine ⟨⟨fun hc => absurd hc (by simp), fun hc =>
      absurd (List.mem_map_of_mem Prod.fst hmem) hc⟩, fun _ => hmem⟩
  · by_cases hw2 : ((watched.map Prod.snd).flatten).dedup = []
    · have hearly : identify_watched_videos video_hashes_map watched hash_size
          threshold = ([], video_hashes_map) := by
        rw [identify_watched_videos, if_neg hw1]
        simp only
        rw [if_pos hw2]
      rw [hearly]
      refine ⟨⟨fun hc => absurd hc (by simp), fun hc =>
        absurd (List.mem_map_of_mem Prod.fst hmem) hc⟩, fun _ => hmem⟩
    · obtain ⟨c1, c2, c3⟩ := iwv_classification video_hashes_map watched
        hash_size threshold p hl hkeys hmem hne hw1 hw2
      refine ⟨?_, fun hnp => c2 (fun hcond => hnp (c1.mpr hcond))⟩
      rw [c1, c3, not_not]

/-- Witness for C2 (amended) at a concrete map and watched set. -/
theorem watched_partition_witness :
    (("a" ∈ (identify_watched_videos [("a", [[true]])] [("w", [[false]])]
        1 50).1 ↔
      "a" ∉ (identify_watched_videos [("a", [[true]])] [("w", [[false]])]
        1 50).2.map Prod.fst) ∧
     ("a" ∉ (identify_watched_videos [("a", [[true]])] [("w", [[false]])]
        1 50).1 →
      ("a", [[true]]) ∈ (identify_watched_videos [("a", [[true]])]
        [("w", [[false]])] 1 50).2)) :=
  watched_partition [("a", [[true]])] [("w", [[false]])] 1 50 "a" [[true]]
    (by simp) (by simp) (by simp)

/-- C4: a video of the map with a non-empty signature, whose frames and
the watched hashes all have `hash_size²` bits, is classified watched iff
`max(0, (bits − avg)/bits) × 100 ≥ threshold`, where `avg` is the mean
over the signature's frames of the linear-scan minimum Hamming distance to
the watched hash set — the BK-tree minimum search used by the code
provably equals the linear-scan minimum. -/
theorem watched_classification {α : Type} [DecidableEq α]
    (video_hashes_map watched : List (α × List FrameHash))
    (hash_size : Nat) (threshold : ℚ) (p : α) (hl : List FrameHash)
    (hkeys : (video_hashes_map.map Prod.fst).Nodup)
    (hmem : (p, hl) ∈ video_hashes_map) (hne : hl ≠ [])
    (hw1 : watched ≠ []) (hw2 : (watched.map Prod.snd).flatten ≠ [])
    (hhl : ∀ h ∈ hl, h.length = hash_size * hash_size)
    (hwl : ∀ w ∈ (watched.map Prod.snd).flatten,
      w.length = hash_size * hash_size) :
    (p ∈ (identify_watched_videos video_hashes_map watched hash_size
        threshold).1 ↔
      max 0 ((((hash_size * hash_size : Nat) : ℚ) -
        ((hl.map (fun h => (linearMinDist h ((watched.map Prod.snd).flatten)
          (hash_size * hash_size) : ℚ))).sum / (hl.length : ℚ))) /
        ((hash_size * hash_size : Nat) : ℚ)) * 100 ≥ threshold) := by
  have hw2' : ((watched.map Prod.snd).flatten).dedup ≠ [] := by
    intro hdn
    cases hfl : (watched.map Prod.snd).flatten with
    | nil => exact hw2 hfl
    | cons w rest =>
      have : w ∈ ((watched.map Prod.snd).flatten).dedup :=
        List.mem_dedup.mpr (by rw [hfl]; exact List.mem_cons_self _ _)
      rw [hdn] at this
      simp at this
  obtain ⟨c1, c2, c3⟩ := iwv_classification video_hashes_map watched
    hash_size threshold p hl hkeys hmem hne hw1 hw2'
  rw [c1]
  have hmapeq : hl.map (fun h => bkMinDist
      (buildTree ((watched.map Prod.snd).flatten).dedup) h
      (hash_size * hash_size)) =
      hl.map (fun h => linearMinDist h ((watched.map Prod.snd).flatten)
        (hash_size * hash_size)) := by
    apply List.map_congr_left
    intro h hh
    rw [@bkMinDist_eq_linear (hash_size * hash_size)
      (((watched.map Prod.snd).flatten).dedup)
      (fun w hw => hwl w (List.mem_dedup.mp hw)) h (hhl h hh)
      (hash_size * hash_size)]
    exact linearMinDist_congr h _ _ _ (fun w => List.mem_dedup)
  rw [hmapeq, List.map_map, List.length_map]
  rfl

/-- Witness for C4 at a concrete map and watched set. -/
theorem watched_classification_witness :
    ("a" ∈ (identify_watched_videos [("a", [[true]])] [("w", [[false]])]
        1 0).1 ↔
      max 0 ((((1 * 1 : Nat) : ℚ) -
        (([[true]].map (fun h => (linearMinDist h
          (([("w", [[false]])].map Prod.snd).flatten) (1 * 1) : ℚ))).sum /
          (([[true]] : List FrameHash).length : ℚ))) /
        ((1 * 1 : Nat) : ℚ)) * 100 ≥ 0) :=
  watched_classification [("a", [[true]])] [("w", [[false]])] 1 0 "a"
    [[true]] (by simp) (by simp) (by simp) (by simp) (by simp)
    (by decide) (by decide)

end VideoFinder
